import Mathlib

/-
Verification of the snobot span-resolution and evaluation pipeline.

Shallow embedding of the relevant source code:
  evals/span_analyzer.py  (SpanInfo geometry, per-note greedy IoU matching)
  evals/snomed_eval.py    (occurrence finding, crosswalk, overlap resolution,
                           per-class IoU scoring)
  agents/extract_agent.py (concept context builder, standardize + finalize)

Python floats are modelled by exact rationals, machine integers by Int / Nat,
relational tables by lists of rows, and fallible code by Option / Except.
The Python field name end is a reserved word here and is rendered stop.
-/

/-! ## SpanInfo and IoU (evals/span_analyzer.py, class SpanInfo)

The note_id / text / concept_name fields play no role in the per-note span
geometry and are omitted; start, end (here stop) and concept_id are kept. -/

structure SpanInfo where
  start : Int
  stop : Int
  concept_id : Int
deriving DecidableEq, Repr

def SpanInfo.sLen (s : SpanInfo) : Int := s.stop - s.start

/-- Source: SpanInfo.overlaps_with: not (self.end <= other.start or other.end <= self.start). -/
def SpanInfo.overlaps_with (a b : SpanInfo) : Bool :=
  ! (decide (a.stop ≤ b.start) || decide (b.stop ≤ a.start))

/-- Source: SpanInfo.overlap_length: 0 when not overlapping, else min(ends) - max(starts). -/
def SpanInfo.overlap_length (a b : SpanInfo) : Int :=
  if a.overlaps_with b then min a.stop b.stop - max a.start b.start else 0

/-- Source: SpanInfo.iou_with: intersection / union, with the union > 0 guard;
0.0 when the intersection is 0. -/
def SpanInfo.iou_with (a b : SpanInfo) : ℚ :=
  if a.overlap_length b = 0 then 0
  else if 0 < a.sLen + b.sLen - a.overlap_length b
    then ((a.overlap_length b : ℚ)) / (((a.sLen + b.sLen - a.overlap_length b : Int) : ℚ))
    else 0

/-! ## Overlap resolution (evals/snomed_eval.py, _resolve_overlapping_spans)

Competition entities are dicts with keys start, end, text, concept_id. -/

structure CompEntity where
  start : Nat
  stop : Nat
  text : String
  concept_id : Nat
deriving DecidableEq, Repr

/-- Source: SNOMEDEvaluator._spans_overlap. -/
def spansOverlap (a b : CompEntity) : Bool :=
  ! (decide (a.stop ≤ b.start) || decide (b.stop ≤ a.start))

/-- The sort key (x[start], -(x[end]-x[start])) of _resolve_overlapping_spans,
as a boolean lexicographic "less or equal" (Python ints are signed). -/
def entityKeyLE (a b : CompEntity) : Bool :=
  decide (a.start < b.start) ||
    (decide (a.start = b.start) &&
      decide ((b.stop : Int) - (b.start : Int) ≤ (a.stop : Int) - (a.start : Int)))

def insertByKey (x : CompEntity) : List CompEntity → List CompEntity
  | [] => [x]
  | y :: ys => if entityKeyLE x y then x :: y :: ys else y :: insertByKey x ys

/-- Stable sort by (start, -(end-start)); Python sorted is stable, so the
stable insertion sort below produces exactly its output. -/
def sortEntities : List CompEntity → List CompEntity
  | [] => []
  | x :: xs => insertByKey x (sortEntities xs)

/-- The greedy keep loop of _resolve_overlapping_spans: keep an entity exactly
when it overlaps no already-kept entity. -/
def resolveLoop : List CompEntity → List CompEntity → List CompEntity
  | kept, [] => kept
  | kept, e :: rest =>
    if kept.any (fun s => spansOverlap e s) then resolveLoop kept rest
    else resolveLoop (kept ++ [e]) rest

/-- Source: SNOMEDEvaluator._resolve_overlapping_spans. -/
def resolveOverlappingSpans (entities : List CompEntity) : List CompEntity :=
  if entities.isEmpty then entities
  else resolveLoop [] (sortEntities entities)

/-! ## Concept Store (resources/sql_db.py tables, queried by the agent code)

Rows of the OMOP concept_relationship and concept tables; run_query on the
modelled store is list filtering, returning rows in table order. Concept ids
are BIGINT columns, modelled as Nat. -/

structure RelRow where
  concept_id_1 : Nat
  concept_id_2 : Nat
  relationship_id : String
deriving DecidableEq, Repr

structure ConceptRow where
  concept_id : Nat
  concept_name : String
  domain_id : String
  vocabulary_id : String
  concept_code : String
  standard_concept : String
deriving DecidableEq, Repr

structure ConceptStore where
  concept_relationship : List RelRow
  concept : List ConceptRow
deriving DecidableEq, Repr

/-- SELECT concept_id_2 FROM concept_relationship WHERE concept_id_1 = cid
AND relationship_id = the Maps to relationship (full rows kept here). -/
def mapsToRows (store : ConceptStore) (cid : Nat) : List RelRow :=
  store.concept_relationship.filter
    (fun r => r.concept_id_1 == cid && r.relationship_id == "Maps to")

/-- SELECT ... FROM concept WHERE concept_id = cid. -/
def conceptRowsFor (store : ConceptStore) (cid : Nat) : List ConceptRow :=
  store.concept.filter (fun r => r.concept_id == cid)

/-! ## Concept Coder: STANDARDIZE and FINALIZE (agents/extract_agent.py, code_mention) -/

/-- The data recorded by _log_concept_mapping for the concept_mapping step. -/
structure MappingLog where
  original_concept_id : Nat
  final_concept_id : Nat
  mapping_found : Bool
deriving DecidableEq, Repr

/-- models/core.py FullCodedConcept (concept_id is str(int) there, Nat here). -/
structure FullCodedConcept where
  mention_str : String
  concept_id : Nat
  concept_name : String
  domain_id : String
  vocabulary_id : String
  concept_code : String
  standard : Bool
  negated : Bool
deriving DecidableEq, Repr

/-- The STANDARDIZE step of code_mention: if the Maps to query returns rows,
the first row replaces the selection (mapping_found = true); otherwise the
original id is kept (mapping_found = false). -/
def standardizeConcept (store : ConceptStore) (original : Nat) : Nat × Bool :=
  match mapsToRows store original with
  | [] => (original, false)
  | row :: _ => (row.concept_id_2, true)

/-- The STANDARDIZE + FINALIZE tail of code_mention, starting from the
reasoning step output (original id, negated flag). none models the IndexError
raised when the final id has no row in the concept table (query_result[0]). -/
def codeMentionFinal (store : ConceptStore) (mention : String) (original : Nat)
    (negated : Bool) : Option (FullCodedConcept × MappingLog) :=
  let picked := standardizeConcept store original
  let log : MappingLog := ⟨original, picked.1, picked.2⟩
  match conceptRowsFor store picked.1 with
  | [] => none
  | row :: _ =>
    some (⟨mention, row.concept_id, row.concept_name, row.domain_id,
           row.vocabulary_id, row.concept_code, row.standard_concept == "S", negated⟩, log)

/-! ## Concept Context Builder (agents/extract_agent.py, get_concept_ids_context) -/

/-- models/core.py ConceptRelation (concept_id is str(int) there, Nat here). -/
structure ConceptRelation where
  concept_id : Nat
  concept_name : String
deriving DecidableEq, Repr

/-- models/core.py EnhancedConcept. -/
structure EnhancedConcept where
  concept_id : Nat
  concept_name : String
  domain_id : String
  vocabulary_id : String
  concept_code : String
  standard : Bool
  parent_concepts : Option (List ConceptRelation)
  child_concepts : Option (List ConceptRelation)
deriving DecidableEq, Repr

/-- models/core.py ConceptCollection. -/
structure ConceptCollection where
  concepts : List EnhancedConcept
  total_count : Nat
  search_query : Option String
deriving DecidableEq, Repr

/-- SELECT concept_id_1, concept_id_2 FROM concept_relationship WHERE
concept_id_1 IN (ids) AND relationship_id = the Maps to relationship.
The id list is interpolated with a comma join, so an empty list yields the
SQL text IN (), which the DuckDB (PostgreSQL-family) parser rejects as a
syntax error; run_query then raises. Modelled as Except.error. -/
def runMapsToInQuery (store : ConceptStore) (ids : List Nat) :
    Except String (List (Nat × Nat)) :=
  if ids.isEmpty then .error "Parser Error: syntax error at or near )"
  else .ok ((store.concept_relationship.filter
      (fun r => decide (r.concept_id_1 ∈ ids) && r.relationship_id == "Maps to")).map
      (fun r => (r.concept_id_1, r.concept_id_2)))

/-- SELECT ... FROM concept WHERE concept_id IN (ids), same empty-IN behavior. -/
def runConceptDetailsQuery (store : ConceptStore) (ids : List Nat) :
    Except String (List ConceptRow) :=
  if ids.isEmpty then .error "Parser Error: syntax error at or near )"
  else .ok (store.concept.filter (fun r => decide (r.concept_id ∈ ids)))

/-- The Python dict comprehension concept_mappings: on duplicate keys the last
row wins, so lookup finds the last pair with the given first component. -/
def mappingLookup (pairs : List (Nat × Nat)) (cid : Nat) : Option Nat :=
  (pairs.reverse.find? (fun p => p.1 == cid)).map (fun p => p.2)

/-- Work loop for dedupFirst: keep an element when not seen before. -/
def dedupFirstAux {α : Type} [DecidableEq α] (seen : List α) : List α → List α
  | [] => []
  | x :: xs => if x ∈ seen then dedupFirstAux seen xs else x :: dedupFirstAux (x :: seen) xs

/-- list(dict.fromkeys(l)): deduplicate keeping first occurrences in order. -/
def dedupFirst {α : Type} [DecidableEq α] (l : List α) : List α :=
  dedupFirstAux [] l

/-- One hop of Is a parent edges for cid, joined with concept names
(an INNER JOIN: edges whose target has no concept row are dropped). -/
def parentRelations (store : ConceptStore) (cid : Nat) : List ConceptRelation :=
  (store.concept_relationship.filter
      (fun r => r.concept_id_1 == cid && r.relationship_id == "Is a")).flatMap
    (fun r => (store.concept.filter (fun c => c.concept_id == r.concept_id_2)).map
      (fun c => ⟨r.concept_id_2, c.concept_name⟩))

/-- One hop of Is a child edges (inverse direction), joined with names. -/
def childRelations (store : ConceptStore) (cid : Nat) : List ConceptRelation :=
  (store.concept_relationship.filter
      (fun r => r.concept_id_2 == cid && r.relationship_id == "Is a")).flatMap
    (fun r => (store.concept.filter (fun c => c.concept_id == r.concept_id_1)).map
      (fun c => ⟨r.concept_id_1, c.concept_name⟩))

/-- Assembly of one EnhancedConcept inside get_concept_ids_context;
empty parent / child lists become none rather than some []. -/
def buildEnhanced (store : ConceptStore) (row : ConceptRow) : EnhancedConcept :=
  let parents := parentRelations store row.concept_id
  let children := childRelations store row.concept_id
  ⟨row.concept_id, row.concept_name, row.domain_id, row.vocabulary_id, row.concept_code,
   row.standard_concept == "S",
   if parents.isEmpty then none else some parents,
   if children.isEmpty then none else some children⟩

/-- Source: get_concept_ids_context. Substitute Maps to standard ids,
deduplicate preserving first-seen order, fetch details, expand one hierarchy
hop; a query error (empty IN list) propagates to the caller. -/
def getConceptIdsContext (store : ConceptStore) (concept_ids : List Nat) :
    Except String ConceptCollection :=
  match runMapsToInQuery store concept_ids with
  | .error e => .error e
  | .ok mappingResults =>
    let finalIds := dedupFirst (concept_ids.map (fun cid =>
      match mappingLookup mappingResults cid with
      | some std => std
      | none => cid))
    match runConceptDetailsQuery store finalIds with
    | .error e => .error e
    | .ok hitsDetails =>
      let enhanced := hitsDetails.map (buildEnhanced store)
      .ok ⟨enhanced, enhanced.length, none⟩

/-! ## Occurrence finding (evals/snomed_eval.py, _find_all_mention_occurrences)

The built regex is re.escape(mention) with each escaped space character
replaced by the whitespace-run pattern, compiled case-insensitively and run
with finditer. The pattern is therefore a sequence of two kinds of atoms:
a literal character (case-insensitive) and a greedy nonempty whitespace run
coming from a single space character of the mention (tabs or newlines inside
the mention stay literal). finditer yields leftmost, non-overlapping matches,
with greedy backtracking inside each match. -/

inductive MentionTok where
  | lit (c : Char)
  | ws
deriving DecidableEq, Repr

/-- The character class matched by the regex whitespace escape (ASCII part:
space, tab, newline, vertical tab, form feed, carriage return). -/
def isPySpace (c : Char) : Bool :=
  c = ' ' || c = '\t' || c = '\n' || c = '\x0b' || c = '\x0c' || c = '\r'

/-- Compilation of the mention into pattern atoms: each space becomes the
whitespace-run atom, every other character a case-insensitive literal. -/
def mentionTokens (mention : String) : List MentionTok :=
  mention.toList.map (fun c => if c = ' ' then MentionTok.ws else MentionTok.lit c)

/-- Case-insensitive character comparison (re.IGNORECASE). -/
def charIEq (a b : Char) : Bool := a.toLower == b.toLower

/-- Length of the maximal whitespace prefix. -/
def wsRun : List Char → Nat
  | [] => 0
  | c :: rest => if isPySpace c then wsRun rest + 1 else 0

/-- Backtracking matcher at a fixed position: the number of characters the
whole pattern consumes, none if it does not match here. A ws atom consumes a
nonempty whitespace run, greedily (longest candidate first, backtracking to
shorter runs on failure, exactly as the regex engine treats a greedy +). -/
def matchToks : List MentionTok → List Char → Option Nat
  | [], _ => some 0
  | MentionTok.lit _ :: _, [] => none
  | MentionTok.lit c :: rest, d :: s =>
    if charIEq c d then (matchToks rest s).map (fun n => n + 1) else none
  | MentionTok.ws :: rest, s =>
    (List.range (wsRun s)).reverse.findSome? (fun j =>
      (matchToks rest (s.drop (j + 1))).map (fun m => j + 1 + m))

/-- The finditer scan: at each position try the pattern; on a match of
length L emit (p, p+L) and resume at the match end (one past it for a
zero-length match, only possible for the empty mention). The fuel argument
only serves structural recursion; the caller passes length + 1, which is
never exhausted since every step consumes at least one character. -/
def scanOccurrences (toks : List MentionTok) : Nat → Nat → List Char → List (Nat × Nat)
  | 0, _, _ => []
  | _ + 1, p, [] =>
    match matchToks toks [] with
    | some k => [(p, p + k)]
    | none => []
  | fuel + 1, p, c :: rest =>
    match matchToks toks (c :: rest) with
    | some 0 => (p, p) :: scanOccurrences toks fuel (p + 1) rest
    | some (L + 1) =>
      (p, p + (L + 1)) :: scanOccurrences toks fuel (p + L + 1) ((c :: rest).drop (L + 1))
    | none => scanOccurrences toks fuel (p + 1) rest

/-- Source: SNOMEDEvaluator._find_all_mention_occurrences. -/
def findAllMentionOccurrences (text mention : String) : List (Nat × Nat) :=
  scanOccurrences (mentionTokens mention) (text.toList.length + 1) 0 text.toList

/-- Declarative matching relation: the pattern matches exactly this character
list, a ws atom consuming some nonempty all-whitespace chunk. This is the
notion of occurrence used to state the claims. -/
inductive FlexMatches : List MentionTok → List Char → Prop where
  | nil : FlexMatches [] []
  | lit {c d : Char} {rest : List MentionTok} {s : List Char} :
      charIEq c d = true → FlexMatches rest s → FlexMatches (MentionTok.lit c :: rest) (d :: s)
  | ws {rest : List MentionTok} {chunk s : List Char} :
      chunk ≠ [] → (∀ c ∈ chunk, isPySpace c = true) → FlexMatches rest s →
      FlexMatches (MentionTok.ws :: rest) (chunk ++ s)

/-- The pair (i, j) is an occurrence of the mention in the text: in range,
and the compiled pattern flex-matches exactly the slice text[i:j]. -/
def IsFlexOccurrence (text mention : String) (i j : Nat) : Prop :=
  i ≤ j ∧ j ≤ text.toList.length ∧
    FlexMatches (mentionTokens mention) ((text.toList.drop i).take (j - i))

/-! ## Span Reconstructor candidate generation (evals/snomed_eval.py,
extract_entities, crosswalk portion) -/

/-- Source: SNOMEDEvaluator._get_snomed_code_from_omop_id: the first concept
row for the OMOP id, kept only if it comes from a SNOMED vocabulary.
The no-row and exception paths both return none. -/
def getSnomedCodeFromOmopId (store : ConceptStore) (omopId : Nat) : Option String :=
  match conceptRowsFor store omopId with
  | [] => none
  | row :: _ =>
    if row.vocabulary_id == "SNOMED" || row.vocabulary_id == "SNOMEDCT_US"
    then some row.concept_code else none

/-- text[start:end] of the note text. -/
def textSlice (text : String) (s e : Nat) : String :=
  String.mk ((text.toList.drop s).take (e - s))

/-- Python int() restricted to plain nonnegative digit strings (SNOMED codes
are such); anything else makes int() raise, modelled as none. -/
def pyIntString (s : String) : Option Nat :=
  if s.toList.isEmpty then none
  else if s.toList.all (fun c => c.isDigit) then
    some (s.toList.foldl (fun acc c => acc * 10 + (c.toNat - 48)) 0)
  else none

/-- The candidate-entity loop of extract_entities: for each coded concept,
crosswalk its OMOP id to a SNOMED code; the Python truthiness test
(if snomed_code:) skips both none and the empty string; a failing
int(snomed_code) propagates as an error (caught by the enclosing try in the
source). For a translatable concept every found occurrence of its mention
becomes one candidate entity. -/
def candidateEntities (store : ConceptStore) (text : String) :
    List FullCodedConcept → Except String (List CompEntity)
  | [] => .ok []
  | concept :: rest =>
    match getSnomedCodeFromOmopId store concept.concept_id with
    | none => candidateEntities store text rest
    | some code =>
      if code = "" then candidateEntities store text rest
      else
        match pyIntString code with
        | none => .error "invalid literal for int()"
        | some n =>
          match candidateEntities store text rest with
          | .error e => .error e
          | .ok es =>
            .ok (((findAllMentionOccurrences text concept.mention_str).map
              (fun occ => (⟨occ.1, occ.2, textSlice text occ.1 occ.2, n⟩ : CompEntity))) ++ es)

/-- The crosswalk step in the words of the spec: candidates whose concept id
cannot be translated into a SNOMED code are dropped, all translatable
candidates contribute one entity per occurrence. -/
def candidateEntitiesSpec (store : ConceptStore) (text : String)
    (concepts : List FullCodedConcept) : List CompEntity :=
  (concepts.filter (fun c => (getSnomedCodeFromOmopId store c.concept_id).isSome)).flatMap
    (fun c => (findAllMentionOccurrences text c.mention_str).map
      (fun occ => (⟨occ.1, occ.2, textSlice text occ.1 occ.2,
        (pyIntString ((getSnomedCodeFromOmopId store c.concept_id).getD "")).getD 0⟩ : CompEntity)))

/-! ## Per-class IoU scoring (evals/snomed_eval.py, _calculate_class_iou and
evaluate_submission) -/

/-- One row of a submission / ground-truth annotation frame. -/
structure AnnRow where
  note_id : String
  start : Int
  stop : Int
  concept_id : Nat
deriving DecidableEq, Repr

/-- The character-position set built per note inside _calculate_class_iou:
union of range(start, end) over the rows of the note. -/
def noteChars (rows : List AnnRow) (note : String) : Finset Int :=
  (rows.filter (fun r => r.note_id == note)).foldl
    (fun s r => s ∪ Finset.Ico r.start r.stop) ∅

/-- Notes present in either frame. The source iterates a Python set; the
order is modelled as first-seen order, and the mean below does not depend
on it. -/
def classNotes (pred gt : List AnnRow) : List String :=
  dedupFirst ((pred.map (fun r => r.note_id)) ++ (gt.map (fun r => r.note_id)))

/-- The per-note loop of _calculate_class_iou over a given note list: each
note whose char-set union is nonempty contributes intersection / union. -/
def noteIouFold (pred gt : List AnnRow) (notes : List String) : List ℚ :=
  notes.foldr
    (fun note acc =>
      if 0 < ((noteChars pred note) ∪ (noteChars gt note)).card
      then ((((noteChars pred note) ∩ (noteChars gt note)).card : ℚ) /
              ((((noteChars pred note) ∪ (noteChars gt note)).card : ℚ))) :: acc
      else acc) []

/-- Source: SNOMEDEvaluator._calculate_class_iou: 1.0 when both frames are
empty, 0.0 when exactly one is, else the per-note IoUs averaged (0.0 when no
note contributed). -/
def calculateClassIoU (pred gt : List AnnRow) : ℚ :=
  if pred.isEmpty && gt.isEmpty then 1
  else if pred.isEmpty || gt.isEmpty then 0
  else
    let ious := noteIouFold pred gt (classNotes pred gt)
    if ious.isEmpty then 0
    else (ious.foldl (fun a b => a + b) 0) / (ious.length : ℚ)

/-- Modelled from the spec: iou_per_class is imported from evals/scoring.py,
which is absent from the repository source; per the spec it returns one IoU
per concept class present in either frame (the source zips its result with
np.unique of the concatenated concept ids), each being the per-note char-set
IoU averaged across notes, i.e. _calculate_class_iou on the rows of that
class. -/
def iouPerClass (pred gt : List AnnRow) : List ℚ :=
  (dedupFirst ((pred.map (fun r => r.concept_id)) ++ (gt.map (fun r => r.concept_id)))).map
    (fun cid => calculateClassIoU (pred.filter (fun r => r.concept_id == cid))
                                  (gt.filter (fun r => r.concept_id == cid)))

/-- Source: evaluate_submission: macro_avg_iou = sum(class_ious) /
len(class_ious) if class_ious else 0. -/
def macroAvgIoU (pred gt : List AnnRow) : ℚ :=
  if (iouPerClass pred gt).isEmpty then 0
  else ((iouPerClass pred gt).foldl (fun a b => a + b) 0) / (((iouPerClass pred gt).length : ℚ))

/-- The per-class IoU in the words of the spec: for each note present in
either frame, the IoU between the union of predicted character positions and
the union of gold character positions, then the unweighted mean across those
notes. -/
def classIoUSpec (pred gt : List AnnRow) : ℚ :=
  (((classNotes pred gt).map (fun note =>
      (((noteChars pred note) ∩ (noteChars gt note)).card : ℚ) /
        ((((noteChars pred note) ∪ (noteChars gt note)).card : ℚ)))).foldl
    (fun a b => a + b) 0) / (((classNotes pred gt).length : ℚ))

/-- The macro metric in the words of the spec: unweighted mean over all
concept classes present in either frame of the per-class IoU. -/
def macroAvgIoUSpec (pred gt : List AnnRow) : ℚ :=
  let classes := dedupFirst ((pred.map (fun r => r.concept_id)) ++ (gt.map (fun r => r.concept_id)))
  ((classes.map (fun cid => classIoUSpec (pred.filter (fun r => r.concept_id == cid))
      (gt.filter (fun r => r.concept_id == cid)))).foldl (fun a b => a + b) 0) /
    ((classes.length : ℚ))

/-! ## Span/Scoring Analyzer per-note matching (evals/span_analyzer.py,
SpanAnalyzer._analyze_note_spans) -/

/-- The overlap classification enum (PARTIAL_OVERLAP is rendered
partOverlap). -/
inductive OverlapType where
  | exactMatch
  | partOverlap
  | conceptMismatch
  | noOverlap
deriving DecidableEq, Repr

/-- SpanComparison of the source, without the free-text notes list. -/
structure SpanComparison where
  agent_span : Option SpanInfo
  gold_span : Option SpanInfo
  overlap_type : OverlapType
  iou_score : ℚ
  overlap_length : Int
deriving DecidableEq, Repr

/-- The inner loop of _analyze_note_spans (the for j, gold_span in
enumerate(gold_spans) block): scan the enumerated gold spans, skip indices
already in matched_gold_indices, and replace the tracked best only on
strictly greater IoU that also reaches the threshold. Returns the final
(best_iou, best) pair, the best carrying its gold index. -/
def findBestGoldAux (agent : SpanInfo) (thr : ℚ) (mG : List Nat) :
    List (Nat × SpanInfo) → ℚ → Option (Nat × SpanInfo) → ℚ × Option (Nat × SpanInfo)
  | [], bestIou, best => (bestIou, best)
  | (j, g) :: rest, bestIou, best =>
    if j ∈ mG then findBestGoldAux agent thr mG rest bestIou best
    else
      if bestIou < agent.iou_with g ∧ thr ≤ agent.iou_with g
      then findBestGoldAux agent thr mG rest (agent.iou_with g) (some (j, g))
      else findBestGoldAux agent thr mG rest bestIou best

/-- The inner loop started from best_iou = 0.0, best_match = None. -/
def findBestGold (agent : SpanInfo) (thr : ℚ) (mG : List Nat)
    (golds : List (Nat × SpanInfo)) : ℚ × Option (Nat × SpanInfo) :=
  findBestGoldAux agent thr mG golds 0 none

/-- The classification of a matched pair: EXACT_MATCH when start, end and
concept id all coincide, else CONCEPT_MISMATCH when the concept ids differ,
else PARTIAL_OVERLAP. -/
def classifyPair (agent gold : SpanInfo) : OverlapType :=
  if agent.start = gold.start ∧ agent.stop = gold.stop ∧
      agent.concept_id = gold.concept_id
  then OverlapType.exactMatch
  else if agent.concept_id ≠ gold.concept_id then OverlapType.conceptMismatch
  else OverlapType.partOverlap

def mkMatchedComparison (agent gold : SpanInfo) (bestIou : ℚ) : SpanComparison :=
  ⟨some agent, some gold, classifyPair agent gold, bestIou, agent.overlap_length gold⟩

def agentOnlyComparison (agent : SpanInfo) : SpanComparison :=
  ⟨some agent, none, OverlapType.noOverlap, 0, 0⟩

def goldOnlyComparison (gold : SpanInfo) : SpanComparison :=
  ⟨none, some gold, OverlapType.noOverlap, 0, 0⟩

/-- The first loop of _analyze_note_spans over the enumerated predicted
spans: on a found best match record both indices as used and append the
matched comparison, scored with the tracked best_iou. -/
def matchLoop (thr : ℚ) (golds : List (Nat × SpanInfo)) :
    List (Nat × SpanInfo) → List Nat → List Nat → List SpanComparison →
    List Nat × List Nat × List SpanComparison
  | [], mA, mG, comps => (mA, mG, comps)
  | (i, a) :: rest, mA, mG, comps =>
    match findBestGold a thr mG golds with
    | (_, none) => matchLoop thr golds rest mA mG comps
    | (bIou, some (j, g)) =>
      matchLoop thr golds rest (mA ++ [i]) (mG ++ [j])
        (comps ++ [mkMatchedComparison a g bIou])

/-- The per-note stats dict of _analyze_note_spans (counters are recorded as
the final counts of the loop; PARTIAL_OVERLAP counter rendered
part_overlaps). -/
structure NoteStats where
  agent_span_count : Nat
  gold_span_count : Nat
  exact_matches : Nat
  part_overlaps : Nat
  concept_mismatches : Nat
  agent_only_spans : Nat
  gold_only_spans : Nat
  comparisons : List SpanComparison
deriving DecidableEq, Repr

/-- Source: SpanAnalyzer._analyze_note_spans: greedy matching over predicted
spans in input order, then one agent-only comparison per unmatched predicted
span (in input order), then one gold-only comparison per unmatched gold span
(in input order). -/
def analyzeNoteSpans (thr : ℚ) (agentSpans goldSpans : List SpanInfo) : NoteStats :=
  let golds := goldSpans.enum
  let res := matchLoop thr golds agentSpans.enum [] [] []
  let matchedComps := res.2.2
  let agentOnly := (agentSpans.enum.filter (fun p => decide (p.1 ∉ res.1))).map
    (fun p => agentOnlyComparison p.2)
  let goldOnly := (golds.filter (fun p => decide (p.1 ∉ res.2.1))).map
    (fun p => goldOnlyComparison p.2)
  { agent_span_count := agentSpans.length
    gold_span_count := goldSpans.length
    exact_matches := matchedComps.countP (fun c => c.overlap_type == OverlapType.exactMatch)
    part_overlaps := matchedComps.countP (fun c => c.overlap_type == OverlapType.partOverlap)
    concept_mismatches := matchedComps.countP (fun c => c.overlap_type == OverlapType.conceptMismatch)
    agent_only_spans := agentOnly.length
    gold_only_spans := goldOnly.length
    comparisons := matchedComps ++ agentOnly ++ goldOnly }

/-- The selection rule in the words of the claim: among the still-unmatched
gold spans take the one with the highest IoU (the first in gold input order
on ties); declare a match exactly when that maximum reaches the threshold
and, when requirePos is set (the amended reading), is strictly positive. -/
def selectGoldClaim (requirePos : Bool) (agent : SpanInfo) (thr : ℚ)
    (mG : List Nat) (golds : List (Nat × SpanInfo)) : Option (Nat × SpanInfo) :=
  match golds.filter (fun p => decide (p.1 ∉ mG)) with
  | [] => none
  | e :: es =>
    let m := (es.map (fun p => agent.iou_with p.2)).foldl max (agent.iou_with e.2)
    if thr ≤ m ∧ (requirePos = true → 0 < m)
    then (e :: es).find? (fun p => agent.iou_with p.2 == m)
    else none

/-- The matching loop with the selection rule stated by the claim; a matched
pair is scored with its own IoU. -/
def matchLoopClaim (requirePos : Bool) (thr : ℚ) (golds : List (Nat × SpanInfo)) :
    List (Nat × SpanInfo) → List Nat → List Nat → List SpanComparison →
    List Nat × List Nat × List SpanComparison
  | [], mA, mG, comps => (mA, mG, comps)
  | (i, a) :: rest, mA, mG, comps =>
    match selectGoldClaim requirePos a thr mG golds with
    | none => matchLoopClaim requirePos thr golds rest mA mG comps
    | some (j, g) =>
      matchLoopClaim requirePos thr golds rest (mA ++ [i]) (mG ++ [j])
        (comps ++ [SpanComparison.mk (some a) (some g) (classifyPair a g) (a.iou_with g) (a.overlap_length g)])

/-- The per-note analysis in the words of the claim (requirePos = false) and
of the amended claim (requirePos = true). -/
def analyzeNoteSpansClaim (requirePos : Bool) (thr : ℚ)
    (agentSpans goldSpans : List SpanInfo) : NoteStats :=
  let golds := goldSpans.enum
  let res := matchLoopClaim requirePos thr golds agentSpans.enum [] [] []
  let matchedComps := res.2.2
  let agentOnly := (agentSpans.enum.filter (fun p => decide (p.1 ∉ res.1))).map
    (fun p => agentOnlyComparison p.2)
  let goldOnly := (golds.filter (fun p => decide (p.1 ∉ res.2.1))).map
    (fun p => goldOnlyComparison p.2)
  { agent_span_count := agentSpans.length
    gold_span_count := goldSpans.length
    exact_matches := matchedComps.countP (fun c => c.overlap_type == OverlapType.exactMatch)
    part_overlaps := matchedComps.countP (fun c => c.overlap_type == OverlapType.partOverlap)
    concept_mismatches := matchedComps.countP (fun c => c.overlap_type == OverlapType.conceptMismatch)
    agent_only_spans := agentOnly.length
    gold_only_spans := goldOnly.length
    comparisons := matchedComps ++ agentOnly ++ goldOnly }

/-! ## Helper lemmas for span geometry -/

theorem spansOverlap_comm (a b : CompEntity) : spansOverlap a b = spansOverlap b a := by
  unfold spansOverlap
  rw [Bool.or_comm]

theorem overlaps_with_comm (a b : SpanInfo) : a.overlaps_with b = b.overlaps_with a := by
  unfold SpanInfo.overlaps_with
  rw [Bool.or_comm]

theorem overlap_length_comm (a b : SpanInfo) : a.overlap_length b = b.overlap_length a := by
  unfold SpanInfo.overlap_length
  rw [overlaps_with_comm, min_comm, max_comm]

theorem iou_with_comm (a b : SpanInfo) : a.iou_with b = b.iou_with a := by
  unfold SpanInfo.iou_with
  rw [overlap_length_comm, add_comm b.sLen a.sLen]

theorem overlaps_true_iff (a b : SpanInfo) :
    a.overlaps_with b = true ↔ (b.start < a.stop ∧ a.start < b.stop) := by
  unfold SpanInfo.overlaps_with
  simp [not_le, and_comm]

theorem overlap_length_bounds (a b : SpanInfo)
    (ha : a.start < a.stop) (hb : b.start < b.stop)
    (hov : a.overlaps_with b = true) :
    0 < a.overlap_length b ∧ a.overlap_length b ≤ a.sLen ∧ a.overlap_length b ≤ b.sLen := by
  have h := (overlaps_true_iff a b).1 hov
  unfold SpanInfo.overlap_length
  rw [hov]
  simp only [if_true]
  unfold SpanInfo.sLen
  rcases le_total a.stop b.stop with h1 | h1 <;>
    rcases le_total a.start b.start with h2 | h2 <;>
      simp [min_eq_left, min_eq_right, max_eq_left, max_eq_right, h1, h2] <;> omega

theorem iou_bounds (a b : SpanInfo)
    (ha : a.start < a.stop) (hb : b.start < b.stop) :
    0 ≤ a.iou_with b ∧ a.iou_with b ≤ 1 := by
  unfold SpanInfo.iou_with
  by_cases h0 : a.overlap_length b = 0
  · simp [h0]
  · simp only [h0, if_false]
    have hov : a.overlaps_with b = true := by
      by_contra hc
      apply h0
      unfold SpanInfo.overlap_length
      simp [Bool.not_eq_true] at hc
      simp [hc]
    obtain ⟨hpos, hla, hlb⟩ := overlap_length_bounds a b ha hb hov
    have hu : a.overlap_length b ≤ a.sLen + b.sLen - a.overlap_length b := by omega
    have hupos : (0 : Int) < a.sLen + b.sLen - a.overlap_length b := by omega
    simp only [hupos, if_true]
    constructor
    · apply div_nonneg
      · exact_mod_cast le_of_lt hpos
      · exact_mod_cast le_of_lt hupos
    · rw [div_le_one (by exact_mod_cast hupos)]
      exact_mod_cast hu

theorem iou_self (a : SpanInfo) (ha : a.start < a.stop) : a.iou_with a = 1 := by
  have hov : a.overlaps_with a = true := by
    rw [overlaps_true_iff]
    omega
  have hol : a.overlap_length a = a.sLen := by
    unfold SpanInfo.overlap_length
    rw [hov]
    simp [SpanInfo.sLen]
  have hlen : (0 : Int) < a.sLen := by unfold SpanInfo.sLen; omega
  unfold SpanInfo.iou_with
  rw [hol]
  have h1 : ¬ (a.sLen = 0) := by omega
  have h2 : (0:Int) < a.sLen + a.sLen - a.sLen := by omega
  simp only [h1, if_false, h2, if_true]
  have : a.sLen + a.sLen - a.sLen = a.sLen := by omega
  rw [this]
  rw [div_self]
  exact_mod_cast h1

/-- C8: IoU is symmetric, bounded by [0,1] on well-formed spans (the data
model invariant start < end), and equals 1 on a span compared with itself
when the span has nonzero (hence positive) length. -/
theorem c8_iou_symmetry_and_bounds (A B : SpanInfo) :
    A.iou_with B = B.iou_with A ∧
    (A.start < A.stop → B.start < B.stop → 0 ≤ A.iou_with B ∧ A.iou_with B ≤ 1) ∧
    (A.start < A.stop → A.iou_with A = 1) := by
  refine ⟨iou_with_comm A B, fun ha hb => iou_bounds A B ha hb, fun ha => iou_self A ha⟩

/-- Witness for c8_iou_symmetry_and_bounds at concrete spans (0,10) and (5,12). -/
theorem c8_iou_symmetry_and_bounds_witness :
    (0 ≤ SpanInfo.iou_with ⟨0, 10, 1⟩ ⟨5, 12, 1⟩ ∧ SpanInfo.iou_with ⟨0, 10, 1⟩ ⟨5, 12, 1⟩ ≤ 1) ∧
    SpanInfo.iou_with ⟨0, 10, 1⟩ ⟨0, 10, 1⟩ = 1 :=
  ⟨(c8_iou_symmetry_and_bounds ⟨0, 10, 1⟩ ⟨5, 12, 1⟩).2.1 (by decide) (by decide),
   (c8_iou_symmetry_and_bounds ⟨0, 10, 1⟩ ⟨5, 12, 1⟩).2.2 (by decide)⟩

/-! ## C2: overlap resolution invariant -/

theorem resolveLoop_pairwise (todo kept : List CompEntity)
    (h : kept.Pairwise (fun a b => spansOverlap a b = false)) :
    (resolveLoop kept todo).Pairwise (fun a b => spansOverlap a b = false) := by
  induction todo generalizing kept with
  | nil => exact h
  | cons e rest ih =>
    unfold resolveLoop
    by_cases hc : kept.any (fun s => spansOverlap e s) = true
    · simp only [hc, if_true]
      exact ih kept h
    · simp only [hc, if_false]
      apply ih
      rw [List.pairwise_append]
      refine ⟨h, List.pairwise_singleton _ _, ?_⟩
      intro a ha b hb
      rw [List.mem_singleton] at hb
      subst hb
      rw [List.any_eq_true] at hc
      push_neg at hc
      have := hc a ha
      rw [spansOverlap_comm]
      simpa using this

/-- C2: overlap resolution sorts by (start, -(end-start)) and greedily keeps
non-overlapping entities; for every input the result is pairwise
non-overlapping, and on candidates (0,10) and (5,10) only (0,10) survives. -/
theorem c2_overlap_resolution :
    (∀ es : List CompEntity,
      (resolveOverlappingSpans es).Pairwise (fun a b => spansOverlap a b = false)) ∧
    resolveOverlappingSpans [⟨0, 10, "A", 1⟩, ⟨5, 10, "A", 1⟩] = [⟨0, 10, "A", 1⟩] := by
  constructor
  · intro es
    unfold resolveOverlappingSpans
    by_cases h : es.isEmpty
    · rw [List.isEmpty_iff] at h
      simp [h]
    · simp only [h, if_false]
      exact resolveLoop_pairwise _ [] (List.Pairwise.nil)
  · decide

/-! ## C4: standardization invariant -/

theorem filter_cons_head_pred {α : Type} {p : α → Bool} {l : List α} {x : α} {rest : List α}
    (h : l.filter p = x :: rest) : x ∈ l ∧ p x = true := by
  have hx : x ∈ l.filter p := by rw [h]; exact List.mem_cons_self x rest
  exact ⟨(List.mem_filter.1 hx).1, (List.mem_filter.1 hx).2⟩

/-- C4: every produced CodedConcept either carries the target of a Maps to
edge from the originally selected id, or no Maps to edge from the original id
exists, the id is kept unchanged, and the concept_mapping log step records
mapping_found = false with final_concept_id = original. -/
theorem c4_standardization_invariant (store : ConceptStore) (mention : String)
    (original : Nat) (neg : Bool) (C : FullCodedConcept) (log : MappingLog)
    (h : codeMentionFinal store mention original neg = some (C, log)) :
    (∃ r ∈ store.concept_relationship,
        r.concept_id_1 = original ∧ r.relationship_id = "Maps to" ∧ r.concept_id_2 = C.concept_id)
    ∨ ((¬ ∃ r ∈ store.concept_relationship,
          r.concept_id_1 = original ∧ r.relationship_id = "Maps to")
       ∧ C.concept_id = original ∧ log.mapping_found = false
       ∧ log.final_concept_id = original) := by
  simp only [codeMentionFinal, standardizeConcept] at h
  cases hmap : mapsToRows store original with
  | nil =>
    rw [hmap] at h
    cases hrows : conceptRowsFor store original with
    | nil =>
      rw [hrows] at h
      simp at h
    | cons crow crest =>
      rw [hrows] at h
      simp only [Option.some.injEq, Prod.mk.injEq] at h
      obtain ⟨hC, hlog⟩ := h
      have hcrow : crow.concept_id = original := by
        have := (filter_cons_head_pred hrows).2
        simpa using this
      right
      refine ⟨?_, ?_, ?_, ?_⟩
      · rintro ⟨r, hr, h1, h2⟩
        have hmem : r ∈ mapsToRows store original :=
          List.mem_filter.2 ⟨hr, by simp [h1, h2]⟩
        rw [hmap] at hmem
        exact absurd hmem (List.not_mem_nil r)
      · rw [← hC]; exact hcrow
      · rw [← hlog]
      · rw [← hlog]
  | cons mrow mrest =>
    rw [hmap] at h
    cases hrows : conceptRowsFor store mrow.concept_id_2 with
    | nil =>
      rw [hrows] at h
      simp at h
    | cons crow crest =>
      rw [hrows] at h
      simp only [Option.some.injEq, Prod.mk.injEq] at h
      obtain ⟨hC, hlog⟩ := h
      have hcrow : crow.concept_id = mrow.concept_id_2 := by
        have := (filter_cons_head_pred hrows).2
        simpa using this
      have hmrow := filter_cons_head_pred hmap
      left
      refine ⟨mrow, hmrow.1, ?_, ?_, ?_⟩
      · have := hmrow.2; simp at this; exact this.1
      · have := hmrow.2; simp at this; exact this.2
      · rw [← hC]; exact hcrow.symm

/-- Witness for c4_standardization_invariant: a store with one Maps to edge
1 → 2 and a concept row for 2. -/
theorem c4_standardization_invariant_witness :
    (∃ r ∈ (⟨[⟨1, 2, "Maps to"⟩], [⟨2, "n", "d", "v", "c", "S"⟩]⟩ : ConceptStore).concept_relationship,
        r.concept_id_1 = 1 ∧ r.relationship_id = "Maps to" ∧
        r.concept_id_2 = (⟨"m", 2, "n", "d", "v", "c", true, false⟩ : FullCodedConcept).concept_id)
    ∨ ((¬ ∃ r ∈ (⟨[⟨1, 2, "Maps to"⟩], [⟨2, "n", "d", "v", "c", "S"⟩]⟩ : ConceptStore).concept_relationship,
          r.concept_id_1 = 1 ∧ r.relationship_id = "Maps to")
       ∧ (⟨"m", 2, "n", "d", "v", "c", true, false⟩ : FullCodedConcept).concept_id = 1
       ∧ (⟨1, 2, true⟩ : MappingLog).mapping_found = false
       ∧ (⟨1, 2, true⟩ : MappingLog).final_concept_id = 1) :=
  c4_standardization_invariant ⟨[⟨1, 2, "Maps to"⟩], [⟨2, "n", "d", "v", "c", "S"⟩]⟩
    "m" 1 false ⟨"m", 2, "n", "d", "v", "c", true, false⟩ ⟨1, 2, true⟩ (by decide)

/-! ## C5: Concept Context Builder on empty and unknown id lists -/

theorem dedupFirstAux_subset {α : Type} [DecidableEq α] (l : List α) :
    ∀ (seen : List α) (x : α), x ∈ dedupFirstAux seen l → x ∈ l := by
  induction l with
  | nil => intro seen x h; simp [dedupFirstAux] at h
  | cons y ys ih =>
    intro seen x h
    rw [dedupFirstAux] at h
    by_cases hy : y ∈ seen
    · simp only [hy, if_true] at h
      exact List.mem_cons_of_mem _ (ih seen x h)
    · simp only [hy, if_false] at h
      rcases List.mem_cons.1 h with h1 | h1
      · exact h1 ▸ List.mem_cons_self _ _
      · exact List.mem_cons_of_mem _ (ih (y :: seen) x h1)

theorem dedupFirst_subset {α : Type} [DecidableEq α] (l : List α) (x : α)
    (h : x ∈ dedupFirst l) : x ∈ l :=
  dedupFirstAux_subset l [] x h

theorem dedupFirst_cons {α : Type} [DecidableEq α] (x : α) (xs : List α) :
    dedupFirst (x :: xs) = x :: dedupFirstAux [x] xs := by
  unfold dedupFirst
  rw [dedupFirstAux]
  simp

/-- On a nonempty id list no query errors, and the builder computes the
substitute / dedup / fetch / enhance pipeline. -/
theorem getConceptIdsContext_nonempty (store : ConceptStore) (ids : List Nat)
    (hne : ids.isEmpty = false) :
    getConceptIdsContext store ids =
      Except.ok
        ⟨((store.concept.filter (fun r => decide (r.concept_id ∈
            dedupFirst (ids.map (fun cid =>
              match mappingLookup ((store.concept_relationship.filter
                  (fun r => decide (r.concept_id_1 ∈ ids) && r.relationship_id == "Maps to")).map
                  (fun r => (r.concept_id_1, r.concept_id_2))) cid with
              | some std => std
              | none => cid))))).map (buildEnhanced store)),
         ((store.concept.filter (fun r => decide (r.concept_id ∈
            dedupFirst (ids.map (fun cid =>
              match mappingLookup ((store.concept_relationship.filter
                  (fun r => decide (r.concept_id_1 ∈ ids) && r.relationship_id == "Maps to")).map
                  (fun r => (r.concept_id_1, r.concept_id_2))) cid with
              | some std => std
              | none => cid))))).map (buildEnhanced store)).length,
         none⟩ := by
  cases ids with
  | nil => simp at hne
  | cons a l =>
    have hfe : (dedupFirst ((a :: l).map (fun cid =>
        match mappingLookup ((store.concept_relationship.filter
            (fun r => decide (r.concept_id_1 ∈ a :: l) && r.relationship_id == "Maps to")).map
            (fun r => (r.concept_id_1, r.concept_id_2))) cid with
        | some std => std
        | none => cid))).isEmpty = false := by
      rw [List.map_cons, dedupFirst_cons]
      rfl
    unfold getConceptIdsContext runMapsToInQuery runConceptDetailsQuery
    simp only [List.isEmpty_cons, Bool.false_eq_true, if_false, hfe]

/-- C5 counterexample: on the empty id list the builder raises a SQL parse
error (the interpolated IN () clause is invalid SQL), rather than returning
an empty ConceptCollection as the claim states. -/
theorem c5_counterexample_empty_list_errors :
    getConceptIdsContext ⟨[], []⟩ [] =
      Except.error "Parser Error: syntax error at or near )" := by
  rfl

/-- C5 amended: for every nonempty id list the builder returns a
ConceptCollection without raising, and it is the empty collection when no
Maps to row and no concept row involves any of the ids; the empty id list
instead produces an invalid IN () query and raises. -/
theorem c5_context_builder_amended (store : ConceptStore) (ids : List Nat)
    (h : ids ≠ []) :
    (∃ c, getConceptIdsContext store ids = .ok c) ∧
    ((∀ r ∈ store.concept_relationship, r.concept_id_1 ∉ ids) →
     (∀ c ∈ store.concept, c.concept_id ∉ ids) →
     getConceptIdsContext store ids = .ok ⟨[], 0, none⟩) := by
  have hne : ids.isEmpty = false := by
    cases ids with
    | nil => exact absurd rfl h
    | cons a l => rfl
  rw [getConceptIdsContext_nonempty store ids hne]
  constructor
  · exact ⟨_, rfl⟩
  · intro h1 h2
    have hmaps : (store.concept_relationship.filter
        (fun r => decide (r.concept_id_1 ∈ ids) && r.relationship_id == "Maps to")) = [] := by
      rw [List.filter_eq_nil]
      intro r hr
      simp only [Bool.and_eq_true, decide_eq_true_eq, beq_iff_eq, not_and]
      intro hmem
      exact absurd hmem (h1 r hr)
    simp only [hmaps, List.map_nil]
    have hsubst : (ids.map (fun cid =>
        match mappingLookup [] cid with
        | some std => std
        | none => cid)) = ids := by
      simp [mappingLookup]
    simp only [hsubst]
    have hdetails : (store.concept.filter
        (fun r => decide (r.concept_id ∈ dedupFirst ids))) = [] := by
      rw [List.filter_eq_nil]
      intro c hc
      simp only [decide_eq_true_eq]
      intro hmem
      exact absurd (dedupFirst_subset ids c.concept_id hmem) (h2 c hc)
    simp only [hdetails, List.map_nil, List.length_nil]

/-- Witness for c5_context_builder_amended: one unknown id against the empty
store yields the empty collection without error. -/
theorem c5_context_builder_amended_witness :
    getConceptIdsContext ⟨[], []⟩ [5] = .ok ⟨[], 0, none⟩ :=
  (c5_context_builder_amended ⟨[], []⟩ [5] (by decide)).2
    (by intro r hr; exact absurd hr (List.not_mem_nil r))
    (by intro c hc; exact absurd hc (List.not_mem_nil c))

/-! ## C7: occurrence finding -/

theorem wsRun_le_length (s : List Char) : wsRun s ≤ s.length := by
  induction s with
  | nil => simp [wsRun]
  | cons c rest ih =>
    rw [wsRun]
    by_cases hc : isPySpace c = true <;> simp [hc] <;> omega

theorem wsRun_spaces (s : List Char) :
    ∀ j, j ≤ wsRun s → ∀ c ∈ s.take j, isPySpace c = true := by
  induction s with
  | nil => intro j hj c hc; simp at hc
  | cons a rest ih =>
    intro j hj c hc
    rw [wsRun] at hj
    by_cases ha : isPySpace a = true
    · simp only [ha, if_true] at hj
      cases j with
      | zero => simp at hc
      | succ j' =>
        rw [List.take_succ_cons] at hc
        rcases List.mem_cons.1 hc with h1 | h1
        · exact h1 ▸ ha
        · exact ih j' (by omega) c h1
    · simp [ha] at hj
      have : j = 0 := by omega
      subst this
      simp at hc

theorem matchToks_sound (toks : List MentionTok) :
    ∀ (s : List Char) (k : Nat),
      matchToks toks s = some k → k ≤ s.length ∧ FlexMatches toks (s.take k) := by
  induction toks with
  | nil =>
    intro s k h
    rw [matchToks] at h
    have : k = 0 := by
      have := Option.some.inj h
      omega
    subst this
    exact ⟨Nat.zero_le _, by rw [List.take_zero]; exact FlexMatches.nil⟩
  | cons t rest ih =>
    cases t with
    | lit c =>
      intro s k h
      cases s with
      | nil => rw [matchToks] at h; exact absurd h (by simp)
      | cons d s' =>
        rw [matchToks] at h
        by_cases hc : charIEq c d = true
        · simp only [hc, if_true] at h
          obtain ⟨n, hn, hnk⟩ := Option.map_eq_some'.1 h
          obtain ⟨hle, hfm⟩ := ih s' n hn
          subst hnk
          constructor
          · simp only [List.length_cons]; omega
          · rw [List.take_succ_cons]
            exact FlexMatches.lit hc hfm
        · simp only [hc, if_false] at h
          exact absurd h (by simp)
    | ws =>
      intro s k h
      rw [matchToks] at h
      obtain ⟨j, hjmem, hj⟩ := List.exists_of_findSome?_eq_some h
      rw [List.mem_reverse, List.mem_range] at hjmem
      obtain ⟨m, hm, hk⟩ := Option.map_eq_some'.1 hj
      obtain ⟨hmle, hmfm⟩ := ih (s.drop (j + 1)) m hm
      have hwl := wsRun_le_length s
      rw [List.length_drop] at hmle
      constructor
      · omega
      · rw [← hk, List.take_add]
        refine FlexMatches.ws ?_ ?_ hmfm
        · cases s with
          | nil => simp [wsRun] at hjmem
          | cons a as => simp [List.take_succ_cons]
        · exact wsRun_spaces s (j + 1) (by omega)

theorem scanOccurrences_sound (toks : List MentionTok) :
    ∀ (fuel : Nat) (s : List Char) (p i j : Nat),
      (i, j) ∈ scanOccurrences toks fuel p s →
      ∃ q k, i = p + q ∧ j = i + k ∧ q + k ≤ s.length ∧
        matchToks toks (s.drop q) = some k := by
  intro fuel
  induction fuel with
  | zero => intro s p i j h; simp [scanOccurrences] at h
  | succ fuel ih =>
    intro s p i j h
    cases s with
    | nil =>
      rw [scanOccurrences] at h
      cases hm : matchToks toks [] with
      | none => rw [hm] at h; simp at h
      | some k0 =>
        rw [hm] at h
        have hk0 : k0 ≤ 0 := by simpa using (matchToks_sound toks [] k0 hm).1
        simp only [List.mem_singleton, Prod.mk.injEq] at h
        exact ⟨0, k0, by omega, by omega, by simpa using hk0, by simpa using hm⟩
    | cons c rest =>
      rw [scanOccurrences] at h
      cases hm : matchToks toks (c :: rest) with
      | none =>
        rw [hm] at h
        obtain ⟨q, k, h1, h2, h3, h4⟩ := ih rest (p + 1) i j h
        refine ⟨q + 1, k, by omega, h2, ?_, ?_⟩
        · simp only [List.length_cons]; omega
        · simpa using h4
      | some L =>
        rw [hm] at h
        have hLlen : L ≤ (c :: rest).length := (matchToks_sound toks (c :: rest) L hm).1
        cases L with
        | zero =>
          rcases List.mem_cons.1 h with h1 | h1
          · obtain ⟨hi, hj⟩ := Prod.mk.injEq .. ▸ h1
            exact ⟨0, 0, by omega, by omega, by simp, by simpa using hm⟩
          · obtain ⟨q, k, h1', h2, h3, h4⟩ := ih rest (p + 1) i j h1
            refine ⟨q + 1, k, by omega, h2, ?_, ?_⟩
            · simp only [List.length_cons]; omega
            · simpa using h4
        | succ L =>
          rcases List.mem_cons.1 h with h1 | h1
          · obtain ⟨hi, hj⟩ := Prod.mk.injEq .. ▸ h1
            exact ⟨0, L + 1, by omega, by omega, by simpa using hLlen, by simpa using hm⟩
          · obtain ⟨q, k, h1', h2, h3, h4⟩ := ih ((c :: rest).drop (L + 1)) (p + L + 1) i j h1
            rw [List.length_drop] at h3
            refine ⟨L + 1 + q, k, by omega, h2, ?_, ?_⟩
            · simp only [List.length_cons] at hLlen h3 ⊢; omega
            · rw [List.drop_drop] at h4
              exact h4

theorem scanOccurrences_pairwise (toks : List MentionTok) :
    ∀ (fuel : Nat) (s : List Char) (p : Nat),
      (scanOccurrences toks fuel p s).Pairwise (fun a b => a.2 ≤ b.1) := by
  intro fuel
  induction fuel with
  | zero => intro s p; simp [scanOccurrences]
  | succ fuel ih =>
    intro s p
    cases s with
    | nil =>
      rw [scanOccurrences]
      cases matchToks toks [] <;> simp
    | cons c rest =>
      rw [scanOccurrences]
      cases hm : matchToks toks (c :: rest) with
      | none => exact ih rest (p + 1)
      | some L =>
        cases L with
        | zero =>
          rw [List.pairwise_cons]
          refine ⟨?_, ih rest (p + 1)⟩
          intro a ha
          obtain ⟨q, k, h1, _, _, _⟩ :=
            scanOccurrences_sound toks fuel rest (p + 1) a.1 a.2 ha
          simp only
          omega
        | succ L =>
          rw [List.pairwise_cons]
          refine ⟨?_, ih _ _⟩
          intro a ha
          obtain ⟨q, k, h1, _, _, _⟩ :=
            scanOccurrences_sound toks fuel ((c :: rest).drop (L + 1)) (p + L + 1) a.1 a.2 ha
          simp only
          omega

/-- C7 counterexample: for text aaa and mention aa, (1, 3) is an occurrence
of the mention under the matching rules the claim itself states, yet the
source function returns only the leftmost non-overlapping occurrence (0, 2):
finditer does not return all occurrences. -/
theorem c7_counterexample_missed_overlapping_occurrence :
    IsFlexOccurrence "aaa" "aa" 1 3 ∧ (1, 3) ∉ findAllMentionOccurrences "aaa" "aa" := by
  constructor
  · refine ⟨by omega, by decide, ?_⟩
    have h1 : mentionTokens "aa" = [MentionTok.lit 'a', MentionTok.lit 'a'] := by decide
    have h2 : ((("aaa" : String).toList.drop 1).take (3 - 1)) = ['a', 'a'] := by decide
    rw [h1, h2]
    exact FlexMatches.lit (by decide) (FlexMatches.lit (by decide) FlexMatches.nil)
  · decide

/-- C7 amended: every pair returned by occurrence finding is a genuine
occurrence (case-insensitive; each single space character of the mention
matching a nonempty whitespace run of the text), the returned pairs are
mutually non-overlapping in left-to-right order (overlapping later
occurrences are skipped), and on the scenario text Denies chest pain. with
mention chest pain exactly the occurrence (7, 17) is returned. -/
theorem c7_occurrence_finding_amended :
    (∀ (text mention : String) (pr : Nat × Nat),
      pr ∈ findAllMentionOccurrences text mention →
      IsFlexOccurrence text mention pr.1 pr.2) ∧
    (∀ (text mention : String),
      (findAllMentionOccurrences text mention).Pairwise (fun a b => a.2 ≤ b.1)) ∧
    findAllMentionOccurrences "Denies chest pain." "chest pain" = [(7, 17)] := by
  refine ⟨?_, ?_, by decide⟩
  · intro text mention pr hpr
    obtain ⟨q, k, h1, h2, h3, h4⟩ :=
      scanOccurrences_sound (mentionTokens mention) (text.toList.length + 1)
        text.toList 0 pr.1 pr.2 hpr
    have hs := matchToks_sound (mentionTokens mention) (text.toList.drop q) k h4
    refine ⟨by omega, by omega, ?_⟩
    have hq : q = pr.1 := by omega
    have hk : pr.2 - pr.1 = k := by omega
    rw [hk, ← hq]
    exact hs.2
  · intro text mention
    exact scanOccurrences_pairwise (mentionTokens mention) (text.toList.length + 1) text.toList 0

/-- Witness for c7_occurrence_finding_amended: the scenario pair (7, 17) is a
genuine occurrence. -/
theorem c7_occurrence_finding_amended_witness :
    IsFlexOccurrence "Denies chest pain." "chest pain" 7 17 :=
  c7_occurrence_finding_amended.1 "Denies chest pain." "chest pain" (7, 17) (by decide)

/-! ## C9: vocabulary crosswalk miss -/

theorem getSnomedCode_from_row (store : ConceptStore) (cid : Nat) (code : String)
    (hg : getSnomedCodeFromOmopId store cid = some code) :
    ∃ row ∈ store.concept,
      (row.vocabulary_id = "SNOMED" ∨ row.vocabulary_id = "SNOMEDCT_US") ∧
      row.concept_code = code := by
  unfold getSnomedCodeFromOmopId at hg
  cases hr : conceptRowsFor store cid with
  | nil => rw [hr] at hg; simp at hg
  | cons row rws =>
    rw [hr] at hg
    by_cases hv : (row.vocabulary_id == "SNOMED" || row.vocabulary_id == "SNOMEDCT_US") = true
    · simp only [hv, if_true, Option.some.injEq] at hg
      refine ⟨row, (filter_cons_head_pred hr).1, ?_, hg⟩
      simpa using hv
    · simp [hv] at hg

/-- C9: during candidate generation, a concept whose id cannot be translated
to a SNOMED code (no concept row, or a row from a non-SNOMED vocabulary)
contributes no output spans and raises no error, while every translatable
concept still contributes one entity per found occurrence: the loop equals
the filter-then-emit description, given the store sanity condition that
SNOMED concept codes are nonempty digit strings (true of real SNOMED codes;
a non-numeric code would instead make int() raise inside the loop). -/
theorem c9_crosswalk_miss_drops_span (store : ConceptStore) (text : String)
    (concepts : List FullCodedConcept)
    (hcodes : ∀ c ∈ store.concept,
      (c.vocabulary_id = "SNOMED" ∨ c.vocabulary_id = "SNOMEDCT_US") →
      c.concept_code ≠ "" ∧ (pyIntString c.concept_code).isSome = true) :
    candidateEntities store text concepts =
      Except.ok (candidateEntitiesSpec store text concepts) := by
  induction concepts with
  | nil => rfl
  | cons c rest ih =>
    cases hg : getSnomedCodeFromOmopId store c.concept_id with
    | none =>
      have hred : candidateEntities store text (c :: rest) =
          candidateEntities store text rest := by
        rw [candidateEntities, hg]
      rw [hred, ih]
      unfold candidateEntitiesSpec
      rw [List.filter_cons_of_neg (by simp [hg])]
    | some code =>
      obtain ⟨row, hrowmem, hvoc, hcode⟩ := getSnomedCode_from_row store c.concept_id code hg
      obtain ⟨hne, hnat⟩ := hcodes row hrowmem hvoc
      have hcne : ¬ (code = "") := fun hEq => hne (by rw [hcode, hEq])
      cases hn : pyIntString code with
      | none =>
        rw [hcode] at hnat
        rw [hn] at hnat
        simp at hnat
      | some n =>
        simp only [candidateEntities, hg, if_neg hcne, hn, ih]
        unfold candidateEntitiesSpec
        rw [List.filter_cons_of_pos (by simp [hg])]
        simp only [List.flatMap_cons, hg, Option.getD_some, hn]

/-- Witness for c9_crosswalk_miss_drops_span: one SNOMED concept (id 10,
code 123) and one non-SNOMED concept (id 20); only the first contributes. -/
theorem c9_crosswalk_miss_drops_span_witness :
    candidateEntities
      ⟨[], [⟨10, "cp", "d", "SNOMED", "123", "S"⟩, ⟨20, "fv", "d", "ICD10", "X99", "S"⟩]⟩
      "chest pain fever"
      [⟨"chest pain", 10, "cp", "d", "SNOMED", "123", true, false⟩,
       ⟨"fever", 20, "fv", "d", "ICD10", "X99", true, false⟩] =
      Except.ok (candidateEntitiesSpec
        ⟨[], [⟨10, "cp", "d", "SNOMED", "123", "S"⟩, ⟨20, "fv", "d", "ICD10", "X99", "S"⟩]⟩
        "chest pain fever"
        [⟨"chest pain", 10, "cp", "d", "SNOMED", "123", true, false⟩,
         ⟨"fever", 20, "fv", "d", "ICD10", "X99", true, false⟩]) :=
  c9_crosswalk_miss_drops_span _ _ _ (by decide)

/-! ## C3: per-class and macro IoU -/

theorem foldl_add_all_zero (l : List ℚ) (h : ∀ x ∈ l, x = 0) :
    ∀ a : ℚ, l.foldl (fun a b => a + b) a = a := by
  induction l with
  | nil => intro a; rfl
  | cons x xs ih =>
    intro a
    rw [List.foldl_cons, h x (List.mem_cons_self _ _), add_zero]
    exact ih (fun y hy => h y (List.mem_cons_of_mem _ hy)) a

theorem subset_foldl_union (l : List AnnRow) :
    ∀ acc : Finset Int, acc ⊆ l.foldl (fun s r => s ∪ Finset.Ico r.start r.stop) acc := by
  induction l with
  | nil => intro acc; exact Finset.Subset.refl acc
  | cons r rs ih =>
    intro acc
    rw [List.foldl_cons]
    exact Finset.Subset.trans Finset.subset_union_left (ih _)

theorem Ico_subset_foldl_union (l : List AnnRow) (r : AnnRow) :
    r ∈ l → ∀ acc : Finset Int,
      Finset.Ico r.start r.stop ⊆ l.foldl (fun s x => s ∪ Finset.Ico x.start x.stop) acc := by
  induction l with
  | nil => intro hr; exact absurd hr (List.not_mem_nil r)
  | cons x xs ih =>
    intro hr acc
    rw [List.foldl_cons]
    rcases List.mem_cons.1 hr with h1 | h1
    · subst h1
      exact Finset.Subset.trans Finset.subset_union_right (subset_foldl_union xs _)
    · exact ih h1 _

theorem noteChars_sub (rows : List AnnRow) (note : String) (r : AnnRow)
    (hr : r ∈ rows) (hn : r.note_id = note) :
    Finset.Ico r.start r.stop ⊆ noteChars rows note := by
  unfold noteChars
  exact Ico_subset_foldl_union _ r (List.mem_filter.2 ⟨hr, by simp [hn]⟩) ∅

theorem noteIouFold_eq_map (pred gt : List AnnRow) (notes : List String)
    (h : ∀ note ∈ notes, 0 < ((noteChars pred note) ∪ (noteChars gt note)).card) :
    noteIouFold pred gt notes = notes.map (fun note =>
      (((noteChars pred note) ∩ (noteChars gt note)).card : ℚ) /
        ((((noteChars pred note) ∪ (noteChars gt note)).card : ℚ))) := by
  induction notes with
  | nil => rfl
  | cons n ns ih =>
    have hstep : noteIouFold pred gt (n :: ns) =
        (if 0 < ((noteChars pred n) ∪ (noteChars gt n)).card
         then ((((noteChars pred n) ∩ (noteChars gt n)).card : ℚ) /
                ((((noteChars pred n) ∪ (noteChars gt n)).card : ℚ))) :: noteIouFold pred gt ns
         else noteIouFold pred gt ns) := rfl
    rw [hstep, if_pos (h n (List.mem_cons_self _ _)),
      ih (fun m hm => h m (List.mem_cons_of_mem _ hm)), List.map_cons]

theorem classIoUSpec_zero_left (gt : List AnnRow) : classIoUSpec [] gt = 0 := by
  unfold classIoUSpec
  rw [foldl_add_all_zero _ ?_ 0]
  · exact zero_div _
  · intro x hx
    obtain ⟨note, hnote, hxe⟩ := List.mem_map.1 hx
    rw [← hxe]
    have : noteChars [] note = ∅ := rfl
    rw [this]
    simp

theorem classIoUSpec_zero_right (pred : List AnnRow) : classIoUSpec pred [] = 0 := by
  unfold classIoUSpec
  rw [foldl_add_all_zero _ ?_ 0]
  · exact zero_div _
  · intro x hx
    obtain ⟨note, hnote, hxe⟩ := List.mem_map.1 hx
    rw [← hxe]
    have : noteChars [] note = ∅ := rfl
    rw [this]
    simp

/-- The in-source per-class computation agrees with the spec formula for
well-formed spans whenever at least one frame is nonempty. -/
theorem calculateClassIoU_eq_spec (pred gt : List AnnRow)
    (hp : ∀ r ∈ pred, r.start < r.stop) (hg : ∀ r ∈ gt, r.start < r.stop)
    (hne : ¬ (pred = [] ∧ gt = [])) :
    calculateClassIoU pred gt = classIoUSpec pred gt := by
  cases hpred : pred with
  | nil =>
    cases hgt : gt with
    | nil => exact absurd ⟨hpred, hgt⟩ hne
    | cons g gs =>
      have hcode : calculateClassIoU [] (g :: gs) = 0 := rfl
      rw [hcode, classIoUSpec_zero_left]
  | cons p ps =>
    cases hgt : gt with
    | nil =>
      have hcode : calculateClassIoU (p :: ps) [] = 0 := rfl
      rw [hcode, classIoUSpec_zero_right]
    | cons g gs =>
      rw [hpred] at hp
      rw [hgt] at hg
      have hguard : ∀ note ∈ classNotes (p :: ps) (g :: gs),
          0 < ((noteChars (p :: ps) note) ∪ (noteChars (g :: gs) note)).card := by
        intro note hnote
        have hmem := dedupFirst_subset _ _ hnote
        rw [List.mem_append] at hmem
        apply Finset.card_pos.2
        rcases hmem with hm | hm
        · obtain ⟨r, hr, hre⟩ := List.mem_map.1 hm
          have hsub := noteChars_sub (p :: ps) note r hr hre
          have hne2 : (Finset.Ico r.start r.stop).Nonempty :=
            Finset.nonempty_Ico.2 (hp r hr)
          exact (hne2.mono hsub).mono Finset.subset_union_left
        · obtain ⟨r, hr, hre⟩ := List.mem_map.1 hm
          have hsub := noteChars_sub (g :: gs) note r hr hre
          have hne2 : (Finset.Ico r.start r.stop).Nonempty :=
            Finset.nonempty_Ico.2 (hg r hr)
          exact (hne2.mono hsub).mono Finset.subset_union_right
      obtain ⟨n0, ns0, hns⟩ : ∃ n0 ns0, classNotes (p :: ps) (g :: gs) = n0 :: ns0 := by
        unfold classNotes
        rw [List.map_cons, List.cons_append, dedupFirst_cons]
        exact ⟨_, _, rfl⟩
      have hcode : calculateClassIoU (p :: ps) (g :: gs) =
          (if (noteIouFold (p :: ps) (g :: gs) (classNotes (p :: ps) (g :: gs))).isEmpty then 0
           else ((noteIouFold (p :: ps) (g :: gs) (classNotes (p :: ps) (g :: gs))).foldl
              (fun a b => a + b) 0) /
             (((noteIouFold (p :: ps) (g :: gs) (classNotes (p :: ps) (g :: gs))).length : ℚ))) := rfl
      rw [hcode, noteIouFold_eq_map (p :: ps) (g :: gs) _ hguard]
      unfold classIoUSpec
      rw [hns]
      simp [List.length_map]

/-- C3: the macro metric is the unweighted mean over concept classes present
in either frame of the per-class IoU; each class IoU is the per-note
character-set IoU averaged (unweighted) across the notes present in either
frame; and a class with no predicted rows and at least one gold row scores
0. The per-class aggregation (iou_per_class of evals/scoring.py) is absent
from the source and modelled from the spec as _calculate_class_iou applied
per class. -/
theorem c3_macro_iou_scoring (pred gt : List AnnRow)
    (hp : ∀ r ∈ pred, r.start < r.stop) (hg : ∀ r ∈ gt, r.start < r.stop) :
    macroAvgIoU pred gt = macroAvgIoUSpec pred gt ∧
    (∀ pc gc : List AnnRow, (∀ r ∈ pc, r.start < r.stop) → (∀ r ∈ gc, r.start < r.stop) →
      ¬ (pc = [] ∧ gc = []) → calculateClassIoU pc gc = classIoUSpec pc gc) ∧
    (∀ gc : List AnnRow, gc ≠ [] → calculateClassIoU [] gc = 0) := by
  refine ⟨?_, calculateClassIoU_eq_spec, ?_⟩
  · unfold macroAvgIoU macroAvgIoUSpec iouPerClass
    have hcong : ∀ cid ∈ dedupFirst ((pred.map (fun r => r.concept_id)) ++
        (gt.map (fun r => r.concept_id))),
        calculateClassIoU (pred.filter (fun r => r.concept_id == cid))
            (gt.filter (fun r => r.concept_id == cid)) =
          classIoUSpec (pred.filter (fun r => r.concept_id == cid))
            (gt.filter (fun r => r.concept_id == cid)) := by
      intro cid hcid
      apply calculateClassIoU_eq_spec
      · intro r hr; exact hp r (List.mem_of_mem_filter hr)
      · intro r hr; exact hg r (List.mem_of_mem_filter hr)
      · have hmem := dedupFirst_subset _ _ hcid
        rw [List.mem_append] at hmem
        rcases hmem with hm | hm
        · obtain ⟨r, hr, hre⟩ := List.mem_map.1 hm
          intro hcon
          have hrf : r ∈ pred.filter (fun r => r.concept_id == cid) :=
            List.mem_filter.2 ⟨hr, by simp [hre]⟩
          rw [hcon.1] at hrf
          exact absurd hrf (List.not_mem_nil r)
        · obtain ⟨r, hr, hre⟩ := List.mem_map.1 hm
          intro hcon
          have hrf : r ∈ gt.filter (fun r => r.concept_id == cid) :=
            List.mem_filter.2 ⟨hr, by simp [hre]⟩
          rw [hcon.2] at hrf
          exact absurd hrf (List.not_mem_nil r)
    rw [List.map_congr_left hcong]
    cases hcl : dedupFirst ((pred.map (fun r => r.concept_id)) ++
        (gt.map (fun r => r.concept_id))) with
    | nil => simp
    | cons c cs => simp [List.length_map]
  · intro gc hgc
    cases gc with
    | nil => exact absurd rfl hgc
    | cons g gs => rfl

/-- Witness for c3_macro_iou_scoring on a small two-class example. -/
theorem c3_macro_iou_scoring_witness :
    macroAvgIoU [⟨"n1", 0, 5, 1⟩] [⟨"n1", 0, 5, 1⟩, ⟨"n2", 2, 4, 2⟩] =
      macroAvgIoUSpec [⟨"n1", 0, 5, 1⟩] [⟨"n1", 0, 5, 1⟩, ⟨"n2", 2, 4, 2⟩] ∧
    calculateClassIoU [] [⟨"n2", 2, 4, 2⟩] = 0 :=
  ⟨(c3_macro_iou_scoring [⟨"n1", 0, 5, 1⟩] [⟨"n1", 0, 5, 1⟩, ⟨"n2", 2, 4, 2⟩]
      (by decide) (by decide)).1,
   (c3_macro_iou_scoring [⟨"n1", 0, 5, 1⟩] [⟨"n1", 0, 5, 1⟩, ⟨"n2", 2, 4, 2⟩]
      (by decide) (by decide)).2.2 [⟨"n2", 2, 4, 2⟩] (by decide)⟩

/-! ## The greedy best-IoU selection: master characterization -/

/-- Full characterization of the inner loop state machine: the running best
only grows, dominates every unmatched threshold-passing candidate, and when a
best is returned it is an unmatched gold whose IoU equals the returned
best_iou, reaches the threshold, strictly exceeds every unmatched
threshold-passing candidate of smaller index, and either is the passed-in
best with an unchanged best_iou or lies in the scanned list with a strictly
increased best_iou. -/
theorem findBestGoldAux_master (agent : SpanInfo) (thr : ℚ) (mG : List Nat) :
    ∀ (gs : List (Nat × SpanInfo)) (bI rI : ℚ) (best rB : Option (Nat × SpanInfo)),
      List.Pairwise (fun a b => a.1 < b.1) gs →
      (∀ j₀ g₀, best = some (j₀, g₀) →
        agent.iou_with g₀ = bI ∧ thr ≤ bI ∧ j₀ ∉ mG ∧ ∀ q ∈ gs, j₀ < q.1) →
      findBestGoldAux agent thr mG gs bI best = (rI, rB) →
      (bI ≤ rI ∧
       (∀ k h, (k, h) ∈ gs → k ∉ mG → thr ≤ agent.iou_with h → agent.iou_with h ≤ rI) ∧
       (rB = none → best = none ∧ rI = bI) ∧
       (∀ j g, rB = some (j, g) →
         j ∉ mG ∧ agent.iou_with g = rI ∧ thr ≤ rI ∧
         (∀ k h, (k, h) ∈ gs → k ∉ mG → thr ≤ agent.iou_with h → k < j →
           agent.iou_with h < rI) ∧
         ((best = some (j, g) ∧ rI = bI) ∨ ((j, g) ∈ gs ∧ bI < rI)))) := by
  intro gs
  induction gs with
  | nil =>
    intro bI rI best rB hsort hpre heq
    rw [findBestGoldAux] at heq
    injection heq with h1 h2
    subst h1
    subst h2
    refine ⟨le_refl _, ?_, fun hn => ⟨hn, rfl⟩, ?_⟩
    · intro k h hmem
      exact absurd hmem (List.not_mem_nil _)
    · intro j g hjg
      obtain ⟨a1, a2, a3, _⟩ := hpre j g hjg
      exact ⟨a3, a1, a2, fun k h hmem => absurd hmem (List.not_mem_nil _),
        Or.inl ⟨hjg, rfl⟩⟩
  | cons kh rest ih =>
    intro bI rI best rB hsort hpre heq
    obtain ⟨k₀, h₀⟩ := kh
    rw [List.pairwise_cons] at hsort
    obtain ⟨hks, hsort'⟩ := hsort
    rw [findBestGoldAux] at heq
    by_cases hk : k₀ ∈ mG
    · rw [if_pos hk] at heq
      have hpre' : ∀ j₀ g₀, best = some (j₀, g₀) →
          agent.iou_with g₀ = bI ∧ thr ≤ bI ∧ j₀ ∉ mG ∧ ∀ q ∈ rest, j₀ < q.1 := by
        intro j₀ g₀ hb
        obtain ⟨a1, a2, a3, a4⟩ := hpre j₀ g₀ hb
        exact ⟨a1, a2, a3, fun q hq => a4 q (List.mem_cons_of_mem _ hq)⟩
      obtain ⟨m1, m2, m3, m4⟩ := ih bI rI best rB hsort' hpre' heq
      refine ⟨m1, ?_, m3, ?_⟩
      · intro k h hmem hkm hthr
        rcases List.mem_cons.1 hmem with he | he
        · rw [Prod.mk.injEq] at he
          obtain ⟨rfl, rfl⟩ := he
          exact absurd hk hkm
        · exact m2 k h he hkm hthr
      · intro j g hjg
        obtain ⟨s1, s2, s3, s4, s5⟩ := m4 j g hjg
        refine ⟨s1, s2, s3, ?_, ?_⟩
        · intro k h hmem hkm hthr hkj
          rcases List.mem_cons.1 hmem with he | he
          · rw [Prod.mk.injEq] at he
            obtain ⟨rfl, rfl⟩ := he
            exact absurd hk hkm
          · exact s4 k h he hkm hthr hkj
        · rcases s5 with ⟨e1, e2⟩ | ⟨e1, e2⟩
          · exact Or.inl ⟨e1, e2⟩
          · exact Or.inr ⟨List.mem_cons_of_mem _ e1, e2⟩
    · rw [if_neg hk] at heq
      by_cases hcond : bI < agent.iou_with h₀ ∧ thr ≤ agent.iou_with h₀
      · rw [if_pos hcond] at heq
        have hpre' : ∀ j₀ g₀, (some (k₀, h₀) : Option (Nat × SpanInfo)) = some (j₀, g₀) →
            agent.iou_with g₀ = agent.iou_with h₀ ∧ thr ≤ agent.iou_with h₀ ∧
            j₀ ∉ mG ∧ ∀ q ∈ rest, j₀ < q.1 := by
          intro j₀ g₀ hb
          rw [Option.some.injEq, Prod.mk.injEq] at hb
          obtain ⟨h1, h2⟩ := hb
          subst h1
          subst h2
          exact ⟨rfl, hcond.2, hk, fun q hq => hks q hq⟩
        obtain ⟨m1, m2, m3, m4⟩ :=
          ih (agent.iou_with h₀) rI (some (k₀, h₀)) rB hsort' hpre' heq
        refine ⟨le_of_lt (lt_of_lt_of_le hcond.1 m1), ?_, ?_, ?_⟩
        · intro k h hmem hkm hthr
          rcases List.mem_cons.1 hmem with he | he
          · rw [Prod.mk.injEq] at he
            obtain ⟨rfl, rfl⟩ := he
            exact m1
          · exact m2 k h he hkm hthr
        · intro hnone
          obtain ⟨c1, c2⟩ := m3 hnone
          exact absurd c1 (by simp)
        · intro j g hjg
          obtain ⟨s1, s2, s3, s4, s5⟩ := m4 j g hjg
          refine ⟨s1, s2, s3, ?_, ?_⟩
          · intro k h hmem hkm hthr hkj
            rcases List.mem_cons.1 hmem with he | he
            · rw [Prod.mk.injEq] at he
              obtain ⟨rfl, rfl⟩ := he
              rcases s5 with ⟨e1, e2⟩ | ⟨e1, e2⟩
              · rw [Option.some.injEq, Prod.mk.injEq] at e1
                obtain ⟨rfl, rfl⟩ := e1
                omega
              · exact lt_of_le_of_lt (le_refl _) (by exact e2)
            · exact s4 k h he hkm hthr hkj
          · rcases s5 with ⟨e1, e2⟩ | ⟨e1, e2⟩
            · rw [Option.some.injEq, Prod.mk.injEq] at e1
              obtain ⟨rfl, rfl⟩ := e1
              refine Or.inr ⟨List.mem_cons_self _ _, ?_⟩
              rw [e2]
              exact hcond.1
            · exact Or.inr ⟨List.mem_cons_of_mem _ e1, lt_trans hcond.1 e2⟩
      · rw [if_neg hcond] at heq
        have hpre' : ∀ j₀ g₀, best = some (j₀, g₀) →
            agent.iou_with g₀ = bI ∧ thr ≤ bI ∧ j₀ ∉ mG ∧ ∀ q ∈ rest, j₀ < q.1 := by
          intro j₀ g₀ hb
          obtain ⟨a1, a2, a3, a4⟩ := hpre j₀ g₀ hb
          exact ⟨a1, a2, a3, fun q hq => a4 q (List.mem_cons_of_mem _ hq)⟩
        obtain ⟨m1, m2, m3, m4⟩ := ih bI rI best rB hsort' hpre' heq
        have hno : thr ≤ agent.iou_with h₀ → agent.iou_with h₀ ≤ bI := by
          intro hthr
          by_contra hlt
          push_neg at hlt
          exact hcond ⟨hlt, hthr⟩
        refine ⟨m1, ?_, m3, ?_⟩
        · intro k h hmem hkm hthr
          rcases List.mem_cons.1 hmem with he | he
          · rw [Prod.mk.injEq] at he
            obtain ⟨rfl, rfl⟩ := he
            exact le_trans (hno hthr) m1
          · exact m2 k h he hkm hthr
        · intro j g hjg
          obtain ⟨s1, s2, s3, s4, s5⟩ := m4 j g hjg
          refine ⟨s1, s2, s3, ?_, ?_⟩
          · intro k h hmem hkm hthr hkj
            rcases List.mem_cons.1 hmem with he | he
            · rw [Prod.mk.injEq] at he
              obtain ⟨rfl, rfl⟩ := he
              rcases s5 with ⟨e1, e2⟩ | ⟨e1, e2⟩
              · have hj := (hpre j g e1).2.2.2 (k, h) (List.mem_cons_self _ _)
                simp only at hj
                omega
              · exact lt_of_le_of_lt (hno hthr) e2
            · exact s4 k h he hkm hthr hkj
          · rcases s5 with he | ⟨e1, e2⟩
            · exact Or.inl he
            · exact Or.inr ⟨List.mem_cons_of_mem _ e1, e2⟩

theorem enumFrom_fst_ge {α : Type} (l : List α) :
    ∀ (n : Nat) (q : Nat × α), q ∈ l.enumFrom n → n ≤ q.1 := by
  induction l with
  | nil => intro n q hq; simp [List.enumFrom] at hq
  | cons x xs ih =>
    intro n q hq
    rcases List.mem_cons.1 hq with he | he
    · subst he; exact le_refl n
    · exact le_trans (Nat.le_succ n) (ih (n + 1) q he)

theorem pairwise_fst_lt_enumFrom {α : Type} (l : List α) :
    ∀ n : Nat, List.Pairwise (fun a b => a.1 < b.1) (l.enumFrom n) := by
  induction l with
  | nil => intro n; exact List.Pairwise.nil
  | cons x xs ih =>
    intro n
    have hstep : List.enumFrom n (x :: xs) = (n, x) :: List.enumFrom (n + 1) xs := rfl
    rw [hstep, List.pairwise_cons]
    exact ⟨fun q hq => lt_of_lt_of_le (Nat.lt_succ_self n) (enumFrom_fst_ge xs (n + 1) q hq), ih (n + 1)⟩

theorem pairwise_fst_lt_enum {α : Type} (l : List α) :
    List.Pairwise (fun a b => a.1 < b.1) l.enum :=
  pairwise_fst_lt_enumFrom l 0

theorem foldl_max_le (l : List ℚ) :
    ∀ a c : ℚ, a ≤ c → (∀ x ∈ l, x ≤ c) → l.foldl max a ≤ c := by
  induction l with
  | nil => intro a c ha _; exact ha
  | cons x xs ih =>
    intro a c ha h
    rw [List.foldl_cons]
    exact ih (max a x) c (max_le ha (h x (List.mem_cons_self _ _)))
      (fun y hy => h y (List.mem_cons_of_mem _ hy))

theorem le_foldl_max_init (l : List ℚ) : ∀ a : ℚ, a ≤ l.foldl max a := by
  induction l with
  | nil => intro a; exact le_refl a
  | cons x xs ih =>
    intro a
    rw [List.foldl_cons]
    exact le_trans (le_max_left a x) (ih (max a x))

theorem le_foldl_max_mem (l : List ℚ) :
    ∀ (a x : ℚ), x ∈ l → x ≤ l.foldl max a := by
  induction l with
  | nil => intro a x hx; exact absurd hx (List.not_mem_nil x)
  | cons y ys ih =>
    intro a x hx
    rw [List.foldl_cons]
    rcases List.mem_cons.1 hx with he | he
    · subst he; exact le_trans (le_max_right a x) (le_foldl_max_init ys _)
    · exact ih (max a y) x he

theorem find?_eq_some_of_first (p : Nat × SpanInfo → Bool) (j : Nat) (g : SpanInfo) :
    ∀ l : List (Nat × SpanInfo), List.Pairwise (fun a b => a.1 < b.1) l →
      (j, g) ∈ l → p (j, g) = true →
      (∀ k h, (k, h) ∈ l → k < j → p (k, h) = false) →
      l.find? p = some (j, g) := by
  intro l
  induction l with
  | nil => intro _ hm; exact absurd hm (List.not_mem_nil _)
  | cons x xs ih =>
    intro hsort hm hp hfirst
    rw [List.pairwise_cons] at hsort
    rcases List.mem_cons.1 hm with he | he
    · rw [List.find?_cons, ← he, hp]
    · have hxj : x.1 < j := hsort.1 (j, g) he
      have hxfalse : p x = false := hfirst x.1 x.2 (List.mem_cons_self _ _) hxj
      rw [List.find?_cons, hxfalse]
      exact ih hsort.2 he hp
        (fun k h hkh hkj => hfirst k h (List.mem_cons_of_mem _ hkh) hkj)

theorem foldl_max_attained (l : List ℚ) :
    ∀ a : ℚ, l.foldl max a = a ∨ l.foldl max a ∈ l := by
  induction l with
  | nil => intro a; exact Or.inl rfl
  | cons x xs ih =>
    intro a
    rw [List.foldl_cons]
    rcases le_total a x with hax | hax
    · rw [max_eq_right hax]
      rcases ih x with h | h
      · exact Or.inr (by rw [h]; exact List.mem_cons_self x xs)
      · exact Or.inr (List.mem_cons_of_mem _ h)
    · rw [max_eq_left hax]
      rcases ih a with h | h
      · exact Or.inl h
      · exact Or.inr (List.mem_cons_of_mem _ h)

theorem selectGoldClaim_eq_nil (rp : Bool) (agent : SpanInfo) (thr : ℚ) (mG : List Nat)
    (golds : List (Nat × SpanInfo))
    (hfil : golds.filter (fun p => decide (p.1 ∉ mG)) = []) :
    selectGoldClaim rp agent thr mG golds = none := by
  unfold selectGoldClaim
  rw [hfil]

theorem selectGoldClaim_eq_cons (rp : Bool) (agent : SpanInfo) (thr : ℚ) (mG : List Nat)
    (golds : List (Nat × SpanInfo)) (e : Nat × SpanInfo) (es : List (Nat × SpanInfo))
    (hfil : golds.filter (fun p => decide (p.1 ∉ mG)) = e :: es) :
    selectGoldClaim rp agent thr mG golds =
      (if thr ≤ (es.map (fun p => agent.iou_with p.2)).foldl max (agent.iou_with e.2) ∧
          (rp = true → 0 < (es.map (fun p => agent.iou_with p.2)).foldl max (agent.iou_with e.2))
       then (e :: es).find? (fun p =>
         agent.iou_with p.2 == (es.map (fun p => agent.iou_with p.2)).foldl max (agent.iou_with e.2))
       else none) := by
  unfold selectGoldClaim
  rw [hfil]

/-- The inner loop agrees pointwise with the amended selection rule, and the
returned best_iou is the IoU of the selected pair. -/
theorem findBestGold_eq_selectClaim (agent : SpanInfo) (thr : ℚ) (mG : List Nat)
    (l : List SpanInfo) :
    (findBestGold agent thr mG l.enum).2 = selectGoldClaim true agent thr mG l.enum ∧
    (∀ j g, (findBestGold agent thr mG l.enum).2 = some (j, g) →
      (findBestGold agent thr mG l.enum).1 = agent.iou_with g) := by
  rcases hres : findBestGold agent thr mG l.enum with ⟨rI, rB⟩
  obtain ⟨m1, m2, m3, m4⟩ := findBestGoldAux_master agent thr mG l.enum 0 rI none rB
    (pairwise_fst_lt_enum l) (fun j₀ g₀ h => absurd h (by simp)) hres
  have hfilter : ∀ q : Nat × SpanInfo,
      q ∈ l.enum.filter (fun p => decide (p.1 ∉ mG)) ↔ (q ∈ l.enum ∧ q.1 ∉ mG) := by
    intro q
    rw [List.mem_filter, decide_eq_true_iff]
  constructor
  · cases rB with
    | none =>
      obtain ⟨_, hri⟩ := m3 rfl
      subst hri
      cases hfil : l.enum.filter (fun p => decide (p.1 ∉ mG)) with
      | nil => rw [selectGoldClaim_eq_nil true agent thr mG l.enum hfil]
      | cons e es =>
        rw [selectGoldClaim_eq_cons true agent thr mG l.enum e es hfil, if_neg]
        intro hcond
        obtain ⟨hthr, hpos⟩ := hcond
        have hm0 : (0 : ℚ) <
            (es.map (fun p => agent.iou_with p.2)).foldl max (agent.iou_with e.2) :=
          hpos rfl
        have hattain : ∃ q, q ∈ (e :: es) ∧ agent.iou_with q.2 =
            (es.map (fun p => agent.iou_with p.2)).foldl max (agent.iou_with e.2) := by
          rcases foldl_max_attained (es.map (fun p => agent.iou_with p.2))
              (agent.iou_with e.2) with h | h
          · exact ⟨e, List.mem_cons_self _ _, h.symm⟩
          · obtain ⟨q, hq, hqe⟩ := List.mem_map.1 h
            exact ⟨q, List.mem_cons_of_mem _ hq, hqe⟩
        obtain ⟨q, hq, hqe⟩ := hattain
        have hqf : q ∈ l.enum ∧ q.1 ∉ mG := (hfilter q).1 (hfil ▸ hq)
        have hle := m2 q.1 q.2 (by exact hqf.1) hqf.2 (by rw [hqe]; exact hthr)
        rw [hqe] at hle
        exact absurd (lt_of_lt_of_le hm0 hle) (by simp)
    | some jg =>
      obtain ⟨j, g⟩ := jg
      obtain ⟨s1, s2, s3, s4, s5⟩ := m4 j g rfl
      rcases s5 with ⟨habs, _⟩ | ⟨hmem, hpos⟩
      · exact absurd habs (by simp)
      · have hbound : ∀ q : Nat × SpanInfo, q ∈ l.enum → q.1 ∉ mG →
            agent.iou_with q.2 ≤ rI := by
          intro q hq hqm
          by_contra hlt
          push_neg at hlt
          exact absurd (m2 q.1 q.2 (by exact hq) hqm (le_of_lt (lt_of_le_of_lt s3 hlt)))
            (not_le.2 hlt)
        cases hfil : l.enum.filter (fun p => decide (p.1 ∉ mG)) with
        | nil =>
          have hmm : (j, g) ∈ l.enum.filter (fun p => decide (p.1 ∉ mG)) :=
            (hfilter (j, g)).2 ⟨hmem, s1⟩
          rw [hfil] at hmm
          exact absurd hmm (List.not_mem_nil _)
        | cons e es =>
          have hjmem : (j, g) ∈ (e :: es) := by
            rw [← hfil]
            exact (hfilter (j, g)).2 ⟨hmem, s1⟩
          have hmle : (es.map (fun p => agent.iou_with p.2)).foldl max
              (agent.iou_with e.2) ≤ rI := by
            apply foldl_max_le
            · have hef : e ∈ l.enum ∧ e.1 ∉ mG :=
                (hfilter e).1 (hfil ▸ List.mem_cons_self e es)
              exact hbound e hef.1 hef.2
            · intro x hx
              obtain ⟨q, hq, hqe⟩ := List.mem_map.1 hx
              have hqf : q ∈ l.enum ∧ q.1 ∉ mG :=
                (hfilter q).1 (hfil ▸ List.mem_cons_of_mem e hq)
              rw [← hqe]
              exact hbound q hqf.1 hqf.2
          have hmge : rI ≤ (es.map (fun p => agent.iou_with p.2)).foldl max
              (agent.iou_with e.2) := by
            rcases List.mem_cons.1 hjmem with he | he
            · rw [← s2, ← he]
              exact le_foldl_max_init _ _
            · rw [← s2]
              exact le_foldl_max_mem _ _ _ (List.mem_map.2 ⟨(j, g), he, rfl⟩)
          have hm : (es.map (fun p => agent.iou_with p.2)).foldl max
              (agent.iou_with e.2) = rI := le_antisymm hmle hmge
          rw [selectGoldClaim_eq_cons true agent thr mG l.enum e es hfil, hm,
            if_pos ⟨s3, fun _ => hpos⟩]
          symm
          apply find?_eq_some_of_first
          · rw [← hfil]
            exact List.Pairwise.sublist (List.filter_sublist _) (pairwise_fst_lt_enum l)
          · exact hjmem
          · rw [beq_iff_eq]
            exact s2
          · intro k h hkh hkj
            have hkf : (k, h) ∈ l.enum ∧ k ∉ mG := (hfilter (k, h)).1 (hfil ▸ hkh)
            rw [beq_eq_false_iff_ne]
            intro hiou
            have hthr2 : thr ≤ agent.iou_with h := by rw [hiou]; exact s3
            have hlt := s4 k h hkf.1 hkf.2 hthr2 hkj
            rw [hiou] at hlt
            exact absurd hlt (lt_irrefl rI)
  · intro j g hjg
    exact ((m4 j g hjg).2.1).symm

/-! ## C1: per-note matching equivalence -/

theorem matchLoop_eq_claim (thr : ℚ) (l : List SpanInfo) :
    ∀ (ag : List (Nat × SpanInfo)) (mA mG : List Nat) (comps : List SpanComparison),
      matchLoop thr l.enum ag mA mG comps =
        matchLoopClaim true thr l.enum ag mA mG comps := by
  intro ag
  induction ag with
  | nil => intro mA mG comps; rfl
  | cons ia rest ih =>
    intro mA mG comps
    obtain ⟨i, a⟩ := ia
    rw [matchLoop, matchLoopClaim]
    obtain ⟨hsel, hiou⟩ := findBestGold_eq_selectClaim a thr mG l
    rcases hres : findBestGold a thr mG l.enum with ⟨rI, rB⟩
    rw [hres] at hsel hiou
    rw [← hsel]
    cases rB with
    | none => exact ih mA mG comps
    | some jg =>
      obtain ⟨j, g⟩ := jg
      have hriou : rI = a.iou_with g := hiou j g rfl
      have hcomp : mkMatchedComparison a g rI =
          SpanComparison.mk (some a) (some g) (classifyPair a g) (a.iou_with g)
            (a.overlap_length g) := by
        unfold mkMatchedComparison
        rw [hriou]
      show matchLoop thr l.enum rest (mA ++ [i]) (mG ++ [j])
            (comps ++ [mkMatchedComparison a g rI]) =
          matchLoopClaim true thr l.enum rest (mA ++ [i]) (mG ++ [j])
            (comps ++ [SpanComparison.mk (some a) (some g) (classifyPair a g)
              (a.iou_with g) (a.overlap_length g)])
      rw [hcomp]
      exact ih _ _ _

/-- C1 counterexample: at threshold 0 with a predicted span disjoint from the
single gold span, the maximal IoU (0) does reach the threshold, so the claim
as stated declares a match; the source only matches on strictly positive
IoU (the best is replaced only when iou > best_iou, starting from 0.0), so
the outputs differ. -/
theorem c1_counterexample_zero_threshold :
    analyzeNoteSpansClaim false 0 [⟨0, 5, 1⟩] [⟨10, 15, 1⟩] ≠
      analyzeNoteSpans 0 [⟨0, 5, 1⟩] [⟨10, 15, 1⟩] := by
  decide

/-- C1 amended: per note the source processes predicted spans in input
order; for each it selects among the still-unmatched gold spans the one with
the highest IoU (the earliest on ties) and declares a match exactly when
that maximum is at least the iou_threshold and strictly positive, marking
both spans used and classifying EXACT_MATCH / CONCEPT_MISMATCH /
PARTIAL_OVERLAP as the claim states: the full per-note analysis equals the
analysis driven by that amended selection rule. -/
theorem c1_greedy_matching_amended (thr : ℚ) (agentSpans goldSpans : List SpanInfo) :
    analyzeNoteSpans thr agentSpans goldSpans =
      analyzeNoteSpansClaim true thr agentSpans goldSpans := by
  simp only [analyzeNoteSpans, analyzeNoteSpansClaim]
  rw [matchLoop_eq_claim]

/-! ## C10: deterministic earliest-argmax tie-break -/

/-- C10 counterexample: at threshold 0, both unmatched gold spans attain the
same maximal IoU 0, which is at least the threshold, so the claim as stated
says the gold span with the smallest index is matched; the source matches
nothing (a candidate replaces the best only on IoU strictly above 0.0), so
no comparison pairs the predicted span with any gold span. -/
theorem c10_counterexample_zero_iou_tie :
    SpanInfo.iou_with ⟨0, 5, 1⟩ ⟨10, 15, 1⟩ = 0 ∧
    SpanInfo.iou_with ⟨0, 5, 1⟩ ⟨20, 25, 1⟩ = 0 ∧
    ((analyzeNoteSpans 0 [⟨0, 5, 1⟩] [⟨10, 15, 1⟩, ⟨20, 25, 1⟩]).comparisons.countP
      (fun c => c.agent_span.isSome && c.gold_span.isSome)) = 0 := by
  decide

/-- C10 amended: whenever the inner loop (lines 282-296) declares a match,
the matched gold span is the earliest still-unmatched gold attaining the
maximal IoU; that maximum is at least the threshold and strictly positive
(ties at the maximum are broken towards the smallest gold index because a
candidate replaces the current best only on strictly greater IoU); since the
analysis is a pure function of (predicted order, gold order, threshold) the
comparisons are deterministic. -/
theorem c10_earliest_argmax_tiebreak (agent : SpanInfo) (thr : ℚ) (mG : List Nat)
    (l : List SpanInfo) (rI : ℚ) (j : Nat) (g : SpanInfo)
    (heq : findBestGold agent thr mG l.enum = (rI, some (j, g))) :
    (j, g) ∈ l.enum ∧ j ∉ mG ∧ agent.iou_with g = rI ∧ thr ≤ rI ∧ 0 < rI ∧
    (∀ k h, (k, h) ∈ l.enum → k ∉ mG → agent.iou_with h ≤ rI) ∧
    (∀ k h, (k, h) ∈ l.enum → k ∉ mG → k < j → agent.iou_with h < rI) := by
  obtain ⟨m1, m2, m3, m4⟩ := findBestGoldAux_master agent thr mG l.enum 0 rI none
    (some (j, g)) (pairwise_fst_lt_enum l) (fun j₀ g₀ h => absurd h (by simp)) heq
  obtain ⟨s1, s2, s3, s4, s5⟩ := m4 j g rfl
  rcases s5 with ⟨habs, _⟩ | ⟨hmem, hpos⟩
  · exact absurd habs (by simp)
  · have hbound : ∀ k h, (k, h) ∈ l.enum → k ∉ mG → agent.iou_with h ≤ rI := by
      intro k h hkh hkm
      by_contra hlt
      push_neg at hlt
      exact absurd (m2 k h hkh hkm (le_of_lt (lt_of_le_of_lt s3 hlt))) (not_le.2 hlt)
    refine ⟨hmem, s1, s2, s3, hpos, hbound, ?_⟩
    intro k h hkh hkm hkj
    by_contra hge
    push_neg at hge
    have hthr2 : thr ≤ agent.iou_with h := le_trans s3 hge
    exact absurd (s4 k h hkh hkm hthr2 hkj) (not_lt.2 hge)

/-- Witness for c10_earliest_argmax_tiebreak: two identical gold spans both
attain IoU 1; the inner loop matches the one with index 0. -/
theorem c10_earliest_argmax_tiebreak_witness :
    ((0 : Nat), (⟨0, 10, 1⟩ : SpanInfo)) ∈ ([⟨0, 10, 1⟩, ⟨0, 10, 1⟩] : List SpanInfo).enum ∧
    (0 : Nat) ∉ ([] : List Nat) ∧
    SpanInfo.iou_with ⟨0, 10, 1⟩ ⟨0, 10, 1⟩ = 1 ∧
    (1 : ℚ) ≤ 1 ∧ (0 : ℚ) < 1 ∧
    (∀ k h, (k, h) ∈ ([⟨0, 10, 1⟩, ⟨0, 10, 1⟩] : List SpanInfo).enum →
      k ∉ ([] : List Nat) → SpanInfo.iou_with ⟨0, 10, 1⟩ h ≤ 1) ∧
    (∀ k h, (k, h) ∈ ([⟨0, 10, 1⟩, ⟨0, 10, 1⟩] : List SpanInfo).enum →
      k ∉ ([] : List Nat) → k < 0 → SpanInfo.iou_with ⟨0, 10, 1⟩ h < 1) :=
  c10_earliest_argmax_tiebreak ⟨0, 10, 1⟩ 1 [] [⟨0, 10, 1⟩, ⟨0, 10, 1⟩] 1 0
    ⟨0, 10, 1⟩ (by
      simp [findBestGold, findBestGoldAux, SpanInfo.iou_with, SpanInfo.overlap_length,
        SpanInfo.overlaps_with, SpanInfo.sLen, List.enum, List.enumFrom])

/-! ## C6: matching soundness -/

theorem matchLoop_comps_mem (thr : ℚ) (l : List SpanInfo) :
    ∀ (ag : List (Nat × SpanInfo)) (mA mG : List Nat) (comps : List SpanComparison)
      (c : SpanComparison), c ∈ (matchLoop thr l.enum ag mA mG comps).2.2 →
      c ∈ comps ∨ ∃ a g rI, c = mkMatchedComparison a g rI ∧ 0 < rI := by
  intro ag
  induction ag with
  | nil => intro mA mG comps c hc; exact Or.inl hc
  | cons ia rest ih =>
    intro mA mG comps c hc
    obtain ⟨i, a⟩ := ia
    rw [matchLoop] at hc
    rcases hres : findBestGold a thr mG l.enum with ⟨rI, rB⟩
    rw [hres] at hc
    cases rB with
    | none => exact ih mA mG comps c hc
    | some jg =>
      obtain ⟨j, g⟩ := jg
      rcases ih (mA ++ [i]) (mG ++ [j]) (comps ++ [mkMatchedComparison a g rI]) c hc with h | h
      · rcases List.mem_append.1 h with h1 | h1
        · exact Or.inl h1
        · right
          rw [List.mem_singleton] at h1
          refine ⟨a, g, rI, h1, ?_⟩
          obtain ⟨m1, m2, m3, m4⟩ := findBestGoldAux_master a thr mG l.enum 0 rI none
            (some (j, g)) (pairwise_fst_lt_enum l) (fun j₀ g₀ hh => absurd hh (by simp)) hres
          obtain ⟨_, _, _, _, s5⟩ := m4 j g rfl
          rcases s5 with ⟨habs, _⟩ | ⟨_, hpos⟩
          · exact absurd habs (by simp)
          · exact hpos
      · exact Or.inr h

theorem matchLoop_agent_count (thr : ℚ) (l : List SpanInfo) (s : SpanInfo) :
    ∀ (ag : List (Nat × SpanInfo)) (mA mG : List Nat) (comps : List SpanComparison),
      ((matchLoop thr l.enum ag mA mG comps).2.2).countP
          (fun c => decide (c.agent_span = some s))
        ≤ comps.countP (fun c => decide (c.agent_span = some s))
          + ag.countP (fun p => decide (p.2 = s)) := by
  intro ag
  induction ag with
  | nil =>
    intro mA mG comps
    rw [matchLoop, List.countP_nil]
    exact Nat.le_add_right _ 0
  | cons ia rest ih =>
    intro mA mG comps
    obtain ⟨i, a⟩ := ia
    rw [matchLoop, List.countP_cons]
    rcases hres : findBestGold a thr mG l.enum with ⟨rI, rB⟩
    cases rB with
    | none =>
      have hih := ih mA mG comps
      have hgoal : ((matchLoop thr l.enum rest mA mG comps).2.2).countP
            (fun c => decide (c.agent_span = some s))
          ≤ comps.countP (fun c => decide (c.agent_span = some s))
            + (rest.countP (fun p => decide (p.2 = s))
              + if (decide (((i, a) : Nat × SpanInfo).2 = s)) = true then 1 else 0) := by
        omega
      exact hgoal
    | some jg =>
      obtain ⟨j, g⟩ := jg
      have hih := ih (mA ++ [i]) (mG ++ [j]) (comps ++ [mkMatchedComparison a g rI])
      rw [List.countP_append, List.countP_cons, List.countP_nil] at hih
      have hpred : (if (decide ((mkMatchedComparison a g rI).agent_span = some s)) = true
          then 1 else 0) = (if (decide (((i, a) : Nat × SpanInfo).2 = s)) = true
          then 1 else 0) := by
        unfold mkMatchedComparison
        simp only
        by_cases has : a = s
        · subst has; simp
        · simp [has]
      rw [hpred] at hih
      have hgoal : ((matchLoop thr l.enum rest (mA ++ [i]) (mG ++ [j])
            (comps ++ [mkMatchedComparison a g rI])).2.2).countP
            (fun c => decide (c.agent_span = some s))
          ≤ comps.countP (fun c => decide (c.agent_span = some s))
            + (rest.countP (fun p => decide (p.2 = s))
              + if (decide (((i, a) : Nat × SpanInfo).2 = s)) = true then 1 else 0) := by
        omega
      exact hgoal

theorem filter_count_step (s : SpanInfo) (j : Nat) (g : SpanInfo) (mG : List Nat) :
    ∀ gl : List (Nat × SpanInfo), List.Pairwise (fun a b => a.1 < b.1) gl →
      (j, g) ∈ gl → j ∉ mG →
      (gl.filter (fun p => decide (p.1 ∉ mG ++ [j]))).countP (fun p => decide (p.2 = s))
          + (if g = s then 1 else 0)
        ≤ (gl.filter (fun p => decide (p.1 ∉ mG))).countP (fun p => decide (p.2 = s)) := by
  intro gl
  induction gl with
  | nil => intro _ hm; exact absurd hm (List.not_mem_nil _)
  | cons x xs ih =>
    intro hsort hm hj
    obtain ⟨x1, x2⟩ := x
    rw [List.pairwise_cons] at hsort
    rcases List.mem_cons.1 hm with he | he
    · rw [Prod.mk.injEq] at he
      obtain ⟨h1, h2⟩ := he
      subst h1
      subst h2
      have hfilters : xs.filter (fun p => decide (p.1 ∉ mG ++ [j]))
          = xs.filter (fun p => decide (p.1 ∉ mG)) := by
        apply List.filter_congr
        intro p hp
        rw [decide_eq_decide]
        have hpj : j < p.1 := hsort.1 p hp
        rw [List.mem_append, List.mem_singleton]
        constructor
        · intro hnot hmem
          exact hnot (Or.inl hmem)
        · intro hnot hmem
          rcases hmem with hmem | hmem
          · exact hnot hmem
          · omega
      have hdrop : decide (((j, g) : Nat × SpanInfo).1 ∉ mG ++ [j]) = false := by
        simp
      have hkeep : decide (((j, g) : Nat × SpanInfo).1 ∉ mG) = true := by
        simpa using hj
      rw [List.filter_cons, hdrop, List.filter_cons, hkeep]
      simp only [Bool.false_eq_true, if_false, if_true]
      rw [List.countP_cons, hfilters]
      have hif : (if (decide (((j, g) : Nat × SpanInfo).2 = s)) = true then 1 else 0)
          = (if g = s then 1 else 0) := by
        by_cases hgs : g = s
        · subst hgs; simp
        · simp [hgs]
      rw [hif]
    · have hx1j : x1 < j := hsort.1 (j, g) he
      have hiff : decide ((x1 : Nat) ∉ mG ++ [j]) = decide (x1 ∉ mG) := by
        rw [decide_eq_decide, List.mem_append, List.mem_singleton]
        constructor
        · intro hnot hmem
          exact hnot (Or.inl hmem)
        · intro hnot hmem
          rcases hmem with hmem | hmem
          · exact hnot hmem
          · omega
      have hih := ih hsort.2 he hj
      rw [List.filter_cons, List.filter_cons]
      by_cases hx : decide ((x1 : Nat) ∉ mG) = true
      · rw [hx, hiff.trans hx]
        simp only [if_true]
        rw [List.countP_cons, List.countP_cons]
        omega
      · rw [Bool.not_eq_true] at hx
        rw [hx, hiff.trans hx]
        simp only [Bool.false_eq_true, if_false]
        exact hih

theorem matchLoop_gold_count (thr : ℚ) (l : List SpanInfo) (s : SpanInfo) :
    ∀ (ag : List (Nat × SpanInfo)) (mA mG : List Nat) (comps : List SpanComparison),
      ((matchLoop thr l.enum ag mA mG comps).2.2).countP
          (fun c => decide (c.gold_span = some s))
        ≤ comps.countP (fun c => decide (c.gold_span = some s))
          + (l.enum.filter (fun p => decide (p.1 ∉ mG))).countP (fun p => decide (p.2 = s)) := by
  intro ag
  induction ag with
  | nil =>
    intro mA mG comps
    rw [matchLoop]
    exact Nat.le_add_right _ _
  | cons ia rest ih =>
    intro mA mG comps
    obtain ⟨i, a⟩ := ia
    rw [matchLoop]
    rcases hres : findBestGold a thr mG l.enum with ⟨rI, rB⟩
    cases rB with
    | none => exact ih mA mG comps
    | some jg =>
      obtain ⟨j, g⟩ := jg
      obtain ⟨m1, m2, m3, m4⟩ := findBestGoldAux_master a thr mG l.enum 0 rI none
        (some (j, g)) (pairwise_fst_lt_enum l) (fun j₀ g₀ hh => absurd hh (by simp)) hres
      obtain ⟨s1, _, _, _, s5⟩ := m4 j g rfl
      have hmem : (j, g) ∈ l.enum := by
        rcases s5 with ⟨habs, _⟩ | ⟨hmem, _⟩
        · exact absurd habs (by simp)
        · exact hmem
      have hih := ih (mA ++ [i]) (mG ++ [j]) (comps ++ [mkMatchedComparison a g rI])
      rw [List.countP_append, List.countP_cons, List.countP_nil] at hih
      have hpred2 : (if (decide ((mkMatchedComparison a g rI).gold_span = some s)) = true
          then 1 else 0) = (if g = s then 1 else 0) := by
        unfold mkMatchedComparison
        simp only
        by_cases hgs : g = s
        · subst hgs; simp
        · simp [hgs]
      rw [hpred2] at hih
      have hstep := filter_count_step s j g mG l.enum (pairwise_fst_lt_enum l) hmem s1
      have hgoal : ((matchLoop thr l.enum rest (mA ++ [i]) (mG ++ [j])
            (comps ++ [mkMatchedComparison a g rI])).2.2).countP
            (fun c => decide (c.gold_span = some s))
          ≤ comps.countP (fun c => decide (c.gold_span = some s))
            + (l.enum.filter (fun p => decide (p.1 ∉ mG))).countP
              (fun p => decide (p.2 = s)) := by
        omega
      exact hgoal

theorem countP_enumFrom_snd (s : SpanInfo) (l : List SpanInfo) :
    ∀ n, ((l.enumFrom n).countP (fun p => decide (p.2 = s)))
      = l.countP (fun x => decide (x = s)) := by
  induction l with
  | nil => intro n; rfl
  | cons x xs ih =>
    intro n
    have hstep : List.enumFrom n (x :: xs) = (n, x) :: List.enumFrom (n + 1) xs := rfl
    rw [hstep, List.countP_cons, List.countP_cons, ih (n + 1)]

/-- C6: every comparison has at most one of agent_span / gold_span null and
never both; and for duplicate-free inputs no predicted span and no gold span
occurs in more than one comparison with iou_score > 0 (matched gold indices
are consumed, and each predicted span is matched at most once). -/
theorem c6_matching_soundness (thr : ℚ) (agentSpans goldSpans : List SpanInfo)
    (hA : agentSpans.Nodup) (hG : goldSpans.Nodup) :
    (∀ c ∈ (analyzeNoteSpans thr agentSpans goldSpans).comparisons,
      ¬ (c.agent_span = none ∧ c.gold_span = none)) ∧
    (∀ s : SpanInfo,
      ((analyzeNoteSpans thr agentSpans goldSpans).comparisons.filter
          (fun c => decide (0 < c.iou_score))).countP
        (fun c => decide (c.agent_span = some s)) ≤ 1 ∧
      ((analyzeNoteSpans thr agentSpans goldSpans).comparisons.filter
          (fun c => decide (0 < c.iou_score))).countP
        (fun c => decide (c.gold_span = some s)) ≤ 1) := by
  have hdecomp : (analyzeNoteSpans thr agentSpans goldSpans).comparisons =
      (matchLoop thr goldSpans.enum agentSpans.enum [] [] []).2.2
        ++ (agentSpans.enum.filter (fun p => decide (p.1 ∉
            (matchLoop thr goldSpans.enum agentSpans.enum [] [] []).1))).map
          (fun p => agentOnlyComparison p.2)
        ++ (goldSpans.enum.filter (fun p => decide (p.1 ∉
            (matchLoop thr goldSpans.enum agentSpans.enum [] [] []).2.1))).map
          (fun p => goldOnlyComparison p.2) := rfl
  constructor
  · intro c hc
    rw [hdecomp] at hc
    rcases List.mem_append.1 hc with hc1 | hc1
    · rcases List.mem_append.1 hc1 with hc2 | hc2
      · rcases matchLoop_comps_mem thr goldSpans agentSpans.enum [] [] [] c hc2 with
          h | ⟨a, g, rI, hceq, _⟩
        · exact absurd h (List.not_mem_nil c)
        · subst hceq
          intro hcon
          exact absurd hcon.1 (by unfold mkMatchedComparison; simp)
      · obtain ⟨p, hp, hpe⟩ := List.mem_map.1 hc2
        rw [← hpe]
        intro hcon
        exact absurd hcon.1 (by unfold agentOnlyComparison; simp)
    · obtain ⟨p, hp, hpe⟩ := List.mem_map.1 hc1
      rw [← hpe]
      intro hcon
      exact absurd hcon.2 (by unfold goldOnlyComparison; simp)
  · intro s
    have hMf : ((matchLoop thr goldSpans.enum agentSpans.enum [] [] []).2.2).filter
        (fun c => decide (0 < c.iou_score)) =
        (matchLoop thr goldSpans.enum agentSpans.enum [] [] []).2.2 := by
      rw [List.filter_eq_self]
      intro c hc
      rcases matchLoop_comps_mem thr goldSpans agentSpans.enum [] [] [] c hc with
        h | ⟨a, g, rI, hceq, hpos⟩
      · exact absurd h (List.not_mem_nil c)
      · subst hceq
        unfold mkMatchedComparison
        simpa using hpos
    have hAf : (((agentSpans.enum.filter (fun p => decide (p.1 ∉
        (matchLoop thr goldSpans.enum agentSpans.enum [] [] []).1))).map
        (fun p => agentOnlyComparison p.2)).filter
          (fun c => decide (0 < c.iou_score))) = [] := by
      rw [List.filter_eq_nil]
      intro c hc
      obtain ⟨p, hp, hpe⟩ := List.mem_map.1 hc
      rw [← hpe]
      unfold agentOnlyComparison
      simp
    have hGf : (((goldSpans.enum.filter (fun p => decide (p.1 ∉
        (matchLoop thr goldSpans.enum agentSpans.enum [] [] []).2.1))).map
        (fun p => goldOnlyComparison p.2)).filter
          (fun c => decide (0 < c.iou_score))) = [] := by
      rw [List.filter_eq_nil]
      intro c hc
      obtain ⟨p, hp, hpe⟩ := List.mem_map.1 hc
      rw [← hpe]
      unfold goldOnlyComparison
      simp
    rw [hdecomp, List.filter_append, List.filter_append, hMf, hAf, hGf,
      List.append_nil, List.append_nil]
    constructor
    · have h1 := matchLoop_agent_count thr goldSpans s agentSpans.enum [] [] []
      rw [List.countP_nil] at h1
      have h2 : agentSpans.enum.countP (fun p => decide (p.2 = s))
          = agentSpans.countP (fun x => decide (x = s)) := countP_enumFrom_snd s agentSpans 0
      have h3 : agentSpans.countP (fun x => decide (x = s)) = agentSpans.count s := rfl
      have h4 : agentSpans.count s ≤ 1 := List.nodup_iff_count_le_one.1 hA s
      omega
    · have h1 := matchLoop_gold_count thr goldSpans s agentSpans.enum [] [] []
      rw [List.countP_nil] at h1
      have hfe : goldSpans.enum.filter (fun p => decide (p.1 ∉ ([] : List Nat)))
          = goldSpans.enum := by
        rw [List.filter_eq_self]
        intro a _
        simp
      rw [hfe] at h1
      have h2 : goldSpans.enum.countP (fun p => decide (p.2 = s))
          = goldSpans.countP (fun x => decide (x = s)) := countP_enumFrom_snd s goldSpans 0
      have h3 : goldSpans.countP (fun x => decide (x = s)) = goldSpans.count s := rfl
      have h4 : goldSpans.count s ≤ 1 := List.nodup_iff_count_le_one.1 hG s
      omega

/-- Witness for c6_matching_soundness on a one-span-each note. -/
theorem c6_matching_soundness_witness :
    ((analyzeNoteSpans (1 / 2 : ℚ) [⟨0, 5, 1⟩] [⟨10, 15, 1⟩]).comparisons.filter
        (fun c => decide (0 < c.iou_score))).countP
      (fun c => decide (c.gold_span = some ⟨10, 15, 1⟩)) ≤ 1 :=
  ((c6_matching_soundness (1 / 2) [⟨0, 5, 1⟩] [⟨10, 15, 1⟩] (by decide) (by decide)).2
    ⟨10, 15, 1⟩).2
